import Mathlib

/-!
Verification of the RFC 2047 encoder/decoder (`rfc2047.c`).

A shallow embedding of the RFC 2047 module.  Strings are modelled as lists
of byte values (`List Nat`, values intended `< 256`, never containing the
NUL terminator); C's NUL-terminated reads past the end of a buffer are
modelled by `List.getD _ _ 0`, whose default `0` plays the role of the
terminator.  The external iconv-based charset-conversion service is a
parameter of every definition that calls it:

* bounded conversion into `try_block`'s scratch buffer is a function
  `Conv = from → to → input → obl → IconvRes`, where `IconvRes` is either
  the converted bytes or an `E2BIG` failure carrying the number of input
  bytes consumed (the code asserts the iconv descriptor opens, so there is
  no open-failure case);
* whole-string conversion (`convert_string`) is a function
  `from → to → input → Option (Nat × List Nat)` returning the number of
  inexactly converted characters (iconv's return value) and the output,
  or `none` on failure.

All loops are modelled either by structural recursion or with an explicit
fuel argument (`none` = fuel exhausted); theorems about termination state
that a concrete fuel suffices.
-/

namespace Rfc2047

/-- `ENCWORD_LEN_MAX`: maximum length of one encoded word. -/
def ENCWORD_LEN_MAX : Nat := 75

/-- `ENCWORD_LEN_MIN`: length of the empty-payload skeleton `=?.?.?.?=`. -/
def ENCWORD_LEN_MIN : Nat := 9

/-- `HSPACE(x)`: NUL, space or horizontal tab. -/
def HSPACE (c : Nat) : Bool := c == 0 || c == 32 || c == 9

/-- `CONTINUATION_BYTE(c)`: `(c & 0xc0) == 0x80`, i.e. bit 7 set, bit 6 clear. -/
def CONTINUATION_BYTE (c : Nat) : Bool := c / 64 % 4 == 2

/-- Modelled from the spec: the header-special characters (the external
`MimeSpecials` array, `"@.,;:<>[]\\\"()?/= \t"`, defined outside this file's
source). -/
def MimeSpecials : List Nat :=
  [64, 46, 44, 59, 58, 60, 62, 91, 93, 92, 34, 40, 41, 63, 47, 61, 32, 9]

/-- The byte-counting predicate of `try_block`: non-printable, high-bit-set,
underscore, or a (non-space) `MimeSpecials` character. -/
def is_special (c : Nat) : Bool :=
  (127 ≤ c) || (c < 32) || (c == 95) || (c != 32 && MimeSpecials.contains c)

/-- One hex digit from the table `"0123456789ABCDEF"`. -/
def hexDigit (n : Nat) : Nat := if n < 10 then 48 + n else 55 + n

/-- The per-byte cost test of `q_encoder` (everything escaped as `=XX`). -/
def q_escaped (c : Nat) : Bool :=
  (127 ≤ c) || (c < 32) || (c == 95) || MimeSpecials.contains c

/-- Quoted-printable body emitted by `q_encoder`: space becomes `_`,
escaped bytes become `=XX`, everything else passes through. -/
def q_body : List Nat → List Nat
  | [] => []
  | c :: rest =>
    (if c == 32 then [95]
     else if q_escaped c then [61, hexDigit (c / 16 % 16), hexDigit (c % 16)]
     else [c]) ++ q_body rest

/-- Modelled from the spec: the standard Base64 alphabet used by the external
`mutt_to_base64`. -/
def b64chr (n : Nat) : Nat :=
  if n < 26 then 65 + n
  else if n < 52 then 97 + (n - 26)
  else if n < 62 then 48 + (n - 52)
  else if n == 62 then 43 else 47

/-- Modelled from the spec: standard Base64 emission in 3-byte groups with
`=` padding at the tail, as performed by `b_encoder` via `mutt_to_base64`. -/
def b64_body : List Nat → List Nat
  | a :: b :: c :: rest =>
    b64chr (a / 4) :: b64chr (a % 4 * 16 + b / 16) ::
    b64chr (b % 16 * 4 + c / 64) :: b64chr (c % 64) :: b64_body rest
  | [a, b] => [b64chr (a / 4), b64chr (a % 4 * 16 + b / 16), b64chr (b % 16 * 4), 61]
  | [a] => [b64chr (a / 4), b64chr (a % 4 * 16), 61, 61]
  | [] => []

/-- `b_encoder`: `=?tocode?B?<base64 body>?=`. -/
def b_encoder (tocode : List Nat) (d : List Nat) : List Nat :=
  [61, 63] ++ tocode ++ [63, 66, 63] ++ b64_body d ++ [63, 61]

/-- `q_encoder`: `=?tocode?Q?<qp body>?=`. -/
def q_encoder (tocode : List Nat) (d : List Nat) : List Nat :=
  [61, 63] ++ tocode ++ [63, 81, 63] ++ q_body d ++ [63, 61]

/-- ASCII lowercasing of one byte, for `mutt_strcasecmp`. -/
def lowerByte (c : Nat) : Nat := if 65 ≤ c ∧ c ≤ 90 then c + 32 else c

/-- Case-insensitive equality of two byte strings (`mutt_strcasecmp … == 0`). -/
def lowerEq (a b : List Nat) : Bool := a.map lowerByte == b.map lowerByte

/-- The bytes of `"iso-2022-jp"`. -/
def iso2022jp : List Nat := [105, 115, 111, 45, 50, 48, 50, 50, 45, 106, 112]

/-- The bytes of `"utf-8"`. -/
def utf8Name : List Nat := [117, 116, 102, 45, 56]

/-- The bytes of `"unknown-8bit"`. -/
def unknown8bit : List Nat := [117, 110, 107, 110, 111, 119, 110, 45, 56, 98, 105, 116]

/-- Result of one bounded iconv conversion into `try_block`'s scratch
buffer: either the converted bytes, or `E2BIG` after consuming a prefix of
the input.  The code asserts that opening the converter succeeds, so there
is no open-failure constructor. -/
inductive IconvRes where
  | ok (out : List Nat)
  | e2big (consumed : Nat)
deriving DecidableEq

/-- The external bounded conversion service:
`from-charset → to-charset → input → output-buffer-size → result`. -/
abbrev Conv := List Nat → List Nat → List Nat → Nat → IconvRes

/-- The transport codec chosen for one encoded word. -/
inductive Codec where
  | B
  | Q
deriving DecidableEq

/-- Result of `try_block`: `accept codec wlen` models returning `0` with
`*encoder`/`*wlen` set; `reject retry` models returning the positive retry
bound. -/
inductive TryRes where
  | accept (codec : Codec) (wlen : Nat)
  | reject (retry : Nat)
deriving DecidableEq

/-- The scratch-buffer capacity of `try_block`:
`sizeof(buf1) - strlen(tocode)` where `sizeof(buf1) = 75 - 9 + 1 = 67`. -/
def scratchCap (tocode : List Nat) : Nat :=
  (ENCWORD_LEN_MAX - ENCWORD_LEN_MIN + 1) - tocode.length

/-- The tail of `try_block` after the conversion produced `out`: count the
special bytes, compute both candidate lengths, special-case ISO-2022-JP,
pick the smaller candidate if it fits, else reject with the span length. -/
def try_block_tail (tocode : List Nat) (dlen : Nat) (out : List Nat) : TryRes :=
  let count := (out.filter is_special).length
  let len := ENCWORD_LEN_MIN - 2 + tocode.length
  let len_b := len + (out.length + 2) / 3 * 4
  let len_q0 := len + out.length + 2 * count
  let len_q := if lowerEq tocode iso2022jp then ENCWORD_LEN_MAX + 1 else len_q0
  if len_b < len_q ∧ len_b ≤ ENCWORD_LEN_MAX then .accept .B len_b
  else if len_q ≤ ENCWORD_LEN_MAX then .accept .Q len_q
  else .reject dlen

/-- `try_block`: convert the span `d` from `fromcode` to `tocode` into the
bounded scratch buffer (or, if `fromcode` is absent, use the raw bytes when
they fit), then decide codec and encoded-word length. -/
def try_block (cv : Conv) (fromcode : Option (List Nat)) (tocode : List Nat)
    (d : List Nat) : TryRes :=
  match fromcode with
  | some fc =>
    match cv fc tocode d (scratchCap tocode) with
    | .e2big consumed =>
      .reject (if consumed == d.length then d.length else consumed + 1)
    | .ok out => try_block_tail tocode d.length out
  | none =>
    if d.length > scratchCap tocode then .reject (scratchCap tocode + 1)
    else try_block_tail tocode d.length d

/-- Run the selected encoder, as `encode_block` does after re-converting. -/
def run_encoder (codec : Codec) (tocode : List Nat) (d : List Nat) : List Nat :=
  match codec with
  | .B => b_encoder tocode d
  | .Q => q_encoder tocode d

/-- `encode_block`: redo the bounded conversion (asserted to succeed, so
failure is propagated as `none`) and emit the encoded word. -/
def encode_block (cv : Conv) (fromcode : Option (List Nat)) (tocode : List Nat)
    (d : List Nat) (codec : Codec) : Option (List Nat) :=
  match fromcode with
  | some fc =>
    match cv fc tocode d (scratchCap tocode) with
    | .e2big _ => none
    | .ok out => some (run_encoder codec tocode out)
  | none => some (run_encoder codec tocode d)

/-- Is the source text UTF-8?  (`fromcode && !mutt_strcasecmp(fromcode, "utf-8")`.) -/
def isUtf8 (fromcode : Option (List Nat)) : Bool :=
  match fromcode with
  | some fc => lowerEq fc utf8Name
  | none => false

/-- The UTF-8 back-off of `choose_block`:
`while (n > 1 && CONTINUATION_BYTE(d[n])) n--`. -/
def cbBackoff (d : List Nat) : Nat → Nat
  | 0 => 0
  | 1 => 1
  | n + 2 => if CONTINUATION_BYTE (d.getD (n + 2) 0) then cbBackoff d (n + 1) else n + 2

/-- One shrink step of `choose_block`: back off over continuation bytes only
when the source is UTF-8. -/
def cbStep (utf8 : Bool) (d : List Nat) (m : Nat) : Nat :=
  if utf8 then cbBackoff d m else m

/-- The split loop of `choose_block`, with fuel.  `d` is the whole span;
each iteration tries the prefix of length `n`. -/
def choose_block_go (cv : Conv) (fromcode : Option (List Nat)) (tocode : List Nat)
    (d : List Nat) (col : Nat) : Nat → Nat → Option (Nat × Codec × Nat)
  | 0, _ => none
  | fuel + 1, n =>
    match try_block cv fromcode tocode (d.take n) with
    | .accept c w =>
      if col + w ≤ ENCWORD_LEN_MAX + 1 ∨ n ≤ 1 then some (n, c, w)
      else choose_block_go cv fromcode tocode d col fuel
        (cbStep (isUtf8 fromcode) d (n - 1))
    | .reject nn =>
      choose_block_go cv fromcode tocode d col fuel
        (cbStep (isUtf8 fromcode) d (nn - 1))

/-- `choose_block`: find the largest prefix of `d` that fits one encoded
word starting in column `col`. -/
def choose_block (cv : Conv) (fromcode : Option (List Nat)) (tocode : List Nat)
    (d : List Nat) (col : Nat) : Option (Nat × Codec × Nat) :=
  choose_block_go cv fromcode tocode d col (d.length + 1) d.length

/-- The slice `[a, b)` of a byte buffer. -/
def sliceL (u : List Nat) (a b : Nat) : List Nat := (u.drop a).take (b - a)

/-- `while (t < ulen && CONTINUATION_BYTE(u[t])) t++`, with fuel. -/
def skipContGo (u : List Nat) : Nat → Nat → Nat
  | 0, t => t
  | f + 1, t =>
    if t < u.length ∧ CONTINUATION_BYTE (u.getD t 0) then skipContGo u f (t + 1) else t

/-- Skip forward over continuation bytes (only when converting via UTF-8). -/
def skipCont (u : List Nat) (icode : Option (List Nat)) (t : Nat) : Nat :=
  if icode.isSome then skipContGo u u.length t else t

/-- `t--` while `u[t]` is a continuation byte (stopping at 0; the C code has
no lower bound but is only called at codepoint-aligned positions). -/
def backContGo (u : List Nat) : Nat → Nat
  | 0 => 0
  | t + 1 => if CONTINUATION_BYTE (u.getD (t + 1) 0) then backContGo u t else t + 1

/-- `t := t1 - 1` then back off over continuation bytes (UTF-8 only). -/
def backContAt (u : List Nat) (icode : Option (List Nat)) (t1 : Nat) : Nat :=
  if icode.isSome then backContGo u (t1 - 1) else t1 - 1

/-- `n--` while `u[t + n]` is a continuation byte (UTF-8 only; stops at 0). -/
def backContRel (u : List Nat) (t : Nat) : Nat → Nat
  | 0 => 0
  | n + 1 => if CONTINUATION_BYTE (u.getD (t + n + 1) 0) then backContRel u t n else n + 1

/-- Gated form of `backContRel`. -/
def backContRelIf (u : List Nat) (icode : Option (List Nat)) (t n : Nat) : Nat :=
  if icode.isSome then backContRel u t n else n

/-- Does position `t` of `u` need encoding?  High bit set, or a `=?` pair at
start-of-string or after white space (`rfc2047_encode`'s first scan). -/
def cond1 (u : List Nat) (t : Nat) : Bool :=
  (u.getD t 0) / 128 % 2 == 1 ||
    (u.getD t 0 == 61 && u.getD (t + 1) 0 == 63 &&
      (t == 0 || HSPACE (u.getD (t - 1) 0)))

/-- Is position `t` a caller-specified special character? -/
def cond2 (u : List Nat) (specials : Option (List Nat)) (t : Nat) : Bool :=
  match specials with
  | some sp => u.getD t 0 != 0 && sp.contains (u.getD t 0)
  | none => false

/-- `for (; t0 > u; t0--)`: pull `t0` left to a position just after white
space from which a one-character encoded word still fits the line. -/
def adjust_t0 (cv : Conv) (icode : Option (List Nat)) (tocode : List Nat)
    (u : List Nat) (col : Nat) : Nat → Nat
  | 0 => 0
  | t0 + 1 =>
    if HSPACE (u.getD t0 0) then
      let t := skipCont u icode (t0 + 2)
      match try_block cv icode tocode (sliceL u (t0 + 1) t) with
      | .accept _ w =>
        if col + (t0 + 1) + w ≤ ENCWORD_LEN_MAX + 1 then t0 + 1
        else adjust_t0 cv icode tocode u col t0
      | .reject _ => adjust_t0 cv icode tocode u col t0
    else adjust_t0 cv icode tocode u col t0

/-- `for (; t1 < u + ulen; t1++)`: push `t1` right to a white-space position
before which a one-character encoded word still fits, with fuel. -/
def adjust_t1_go (cv : Conv) (icode : Option (List Nat)) (tocode : List Nat)
    (u : List Nat) : Nat → Nat → Nat
  | 0, t1 => t1
  | f + 1, t1 =>
    if u.length ≤ t1 then t1
    else if HSPACE (u.getD t1 0) then
      let t := backContAt u icode t1
      match try_block cv icode tocode (sliceL u t t1) with
      | .accept _ w =>
        if 1 + w + (u.length - t1) ≤ ENCWORD_LEN_MAX + 1 then t1
        else adjust_t1_go cv icode tocode u f (t1 + 1)
      | .reject _ => adjust_t1_go cv icode tocode u f (t1 + 1)
    else adjust_t1_go cv icode tocode u f (t1 + 1)

/-- Entry point of the `t1` adjustment loop. -/
def adjust_t1 (cv : Conv) (icode : Option (List Nat)) (tocode : List Nat)
    (u : List Nat) (t1 : Nat) : Nat :=
  adjust_t1_go cv icode tocode u (u.length + 1) t1

/-- `for (t1++; t1 < u + ulen && !HSPACE(*t1); t1++)`: widen the region by
one token, with fuel. -/
def extendT1Go (u : List Nat) : Nat → Nat → Nat
  | 0, t1 => t1
  | f + 1, t1 =>
    if t1 < u.length ∧ ¬HSPACE (u.getD t1 0) then extendT1Go u f (t1 + 1) else t1

/-- Widen `t1` past the next word. -/
def extendT1 (u : List Nat) (t1 : Nat) : Nat := extendT1Go u (u.length + 1) t1

/-- The split of `mutt_choose_charset` over `':'`, one accumulator pass. -/
def splitColonGo : List Nat → List Nat → List (List Nat)
  | [], acc => [acc.reverse]
  | 58 :: rest, acc => acc.reverse :: splitColonGo rest []
  | c :: rest, acc => splitColonGo rest (c :: acc)

/-- Colon-separated candidate charsets; empty segments are skipped
(`if (!n) continue`). -/
def splitColon (s : List Nat) : List (List Nat) :=
  (splitColonGo s []).filter (· ≠ [])

/-- The candidate loop of `mutt_choose_charset`.  `conv t` attempts the full
conversion to candidate `t`, returning iconv's inexact-conversion count and
the converted bytes.  The best candidate (smallest count, earliest wins
ties) is kept; a candidate with count 0 short-circuits (`if (!bestn) break`). -/
def chooseAux (conv : List Nat → Option (Nat × List Nat)) :
    List (List Nat) → Option (List Nat × Nat × List Nat) →
    Option (List Nat × Nat × List Nat)
  | [], best => best
  | t :: rest, best =>
    match conv t with
    | none => chooseAux conv rest best
    | some (n, s) =>
      match best with
      | none =>
        if n == 0 then some (t, 0, s) else chooseAux conv rest (some (t, n, s))
      | some (bt, bn, bs) =>
        if n < bn then
          (if n == 0 then some (t, 0, s) else chooseAux conv rest (some (t, n, s)))
        else chooseAux conv rest (some (bt, bn, bs))

/-- `mutt_choose_charset`: returns the canonicalized chosen charset name and
its converted bytes, or `none` if no candidate converts.  `canon` models the
external `mutt_canonical_charset`. -/
def mutt_choose_charset (canon : List Nat → List Nat)
    (conv : List Nat → Option (Nat × List Nat)) (charsets : List Nat) :
    Option (List Nat × List Nat) :=
  (chooseAux conv (splitColon charsets) none).map (fun r => (canon r.1, r.2.2))

/-- Specification-side selector, following the amended claim wording: among
the successful candidates (in list order, each with its inexact-conversion
count and converted bytes), the earliest one with the fewest inexactly
converted characters. -/
def bestBy : List (List Nat × Nat × List Nat) → Option (List Nat × Nat × List Nat)
  | [] => none
  | x :: rest =>
    match bestBy rest with
    | none => some x
    | some y => if x.2.1 ≤ y.2.1 then some x else some y

/-- The successful candidate conversions, in candidate order. -/
def successes (conv : List Nat → Option (Nat × List Nat)) (cands : List (List Nat)) :
    List (List Nat × Nat × List Nat) :=
  cands.filterMap (fun t => (conv t).map (fun p => (t, p.1, p.2)))

/-- Merging an already-held best candidate with the best of the remaining
list (earlier candidates win ties). -/
def mergeBest : Option (List Nat × Nat × List Nat) → Option (List Nat × Nat × List Nat) →
    Option (List Nat × Nat × List Nat)
  | none, r => r
  | some b, none => some b
  | some b, some x => if x.2.1 < b.2.1 then some x else some b

/-- The structured result of `rfc2047_encode`: the status code, the verbatim
ASCII chunk before the first encoded word, the encoded words in order, and
the verbatim ASCII chunk after the last one.  The flat output interleaves
the words with the fold separator `"\n\t"`. -/
structure EncResult where
  ret : Nat
  pre : List Nat
  words : List (List Nat)
  post : List Nat
deriving DecidableEq

/-- The flat byte output of an `EncResult` (fold point `"\n\t"` between
consecutive encoded words). -/
def joinWords : List (List Nat) → List Nat
  | [] => []
  | [w] => w
  | w :: rest => w ++ [10, 9] ++ joinWords rest

/-- Flat output of the encoder. -/
def EncResult.out (r : EncResult) : List Nat := r.pre ++ joinWords r.words ++ r.post

/-- The main emission loop of `rfc2047_encode` (fuel-based).  Returns the
emitted encoded words and the final `t1` (the widening branch can move it). -/
def encodeLoop (cv : Conv) (icode : Option (List Nat)) (tocode : List Nat)
    (u : List Nat) : Nat → Nat → Nat → Nat → Option (List (List Nat) × Nat)
  | 0, _, _, _ => none
  | fuel + 1, t, t1, col =>
    match choose_block cv icode tocode (sliceL u t t1) col with
    | none => none
    | some (n, codec, w) =>
      if n = t1 - t ∧ col + w + (u.length - t1) ≤ ENCWORD_LEN_MAX + 1 then
        match encode_block cv icode tocode (sliceL u t t1) codec with
        | none => none
        | some word => some ([word], t1)
      else if n = t1 - t then
        let n1 := backContRelIf u icode t (t1 - t - 1)
        if n1 = 0 then
          encodeLoop cv icode tocode u fuel t (extendT1 u (t1 + 1)) col
        else
          match choose_block cv icode tocode ((u.drop t).take n1) col with
          | none => none
          | some (n2, codec2, _) =>
            match encode_block cv icode tocode ((u.drop t).take n2) codec2 with
            | none => none
            | some word =>
              match encodeLoop cv icode tocode u fuel (t + n2) t1 1 with
              | none => none
              | some (ws, t1f) => some (word :: ws, t1f)
      else
        match encode_block cv icode tocode ((u.drop t).take n) codec with
        | none => none
        | some word =>
          match encodeLoop cv icode tocode u fuel (t + n) t1 1 with
          | none => none
          | some (ws, t1f) => some (word :: ws, t1f)

/-- Stage of `rfc2047_encode` after the target charset is settled: relabel
pure-ASCII 8-bit data as `unknown-8bit`, clip `t0` to the line width,
adjust both region ends to white-space boundaries, run the emission loop
and reattach the verbatim prefix/suffix. -/
def encodeStage2 (cv : Conv) (isAsc : List Nat → Bool) (u : List Nat) (col : Nat)
    (t0b t1b : Nat) (ret1 : Nat) (icode1 : Option (List Nat))
    (tocode0 : List Nat) : Option EncResult :=
  let tocode := if icode1 = none ∧ isAsc tocode0 then unknown8bit else tocode0
  let t0c := min t0b ((ENCWORD_LEN_MAX + 1) - col - ENCWORD_LEN_MIN)
  let t0 := adjust_t0 cv icode1 tocode u col t0c
  let t1 := adjust_t1 cv icode1 tocode u t1b
  match encodeLoop cv icode1 tocode u (2 * u.length + 2) t0 t1 (col + t0) with
  | none => none
  | some (ws, t1f) => some ⟨ret1, u.take t0, ws, u.drop t1f⟩

/-- Stage of `rfc2047_encode` after the UTF-8 conversion: scan for the
region needing encoding (returning the text untouched when there is none),
negotiate the target charset, and hand over to `encodeStage2`. -/
def encodeCore (cv : Conv)
    (convFull : List Nat → List Nat → List Nat → Option (Nat × List Nat))
    (canon : List Nat → List Nat) (isAsc : List Nat → Bool) (col : Nat)
    (fromcode : List Nat) (charsets : List Nat) (specials : Option (List Nat))
    (ret0 : Nat) (icode0 : Option (List Nat)) (u : List Nat) : Option EncResult :=
  let firsts := (List.range u.length).filter (fun t => cond1 u t)
  let seconds := (List.range u.length).filter (fun t => cond2 u specials t)
  match firsts.head? with
  | none => some ⟨ret0, u, [], []⟩
  | some t0a =>
    let t1a := (firsts.getLast?).getD t0a
    let t0b := match seconds.head? with
      | some s0 => if s0 < t0a then s0 else t0a
      | none => t0a
    let t1b := match seconds.getLast? with
      | some s1 => if t1a < s1 then s1 else t1a
      | none => t1a
    match icode0 with
    | some ic =>
      match mutt_choose_charset canon (fun t => convFull ic t u) charsets with
      | some (tc, _) => encodeStage2 cv isAsc u col t0b t1b ret0 icode0 tc
      | none => encodeStage2 cv isAsc u col t0b t1b 2 none fromcode
    | none => encodeStage2 cv isAsc u col t0b t1b ret0 none fromcode

/-- `rfc2047_encode`: convert to UTF-8 (degrading to the raw bytes with
status 1 on failure or inexact conversion), then run `encodeCore`.
`convFull` models `convert_string`; `canon` and `isAsc` model the external
`mutt_canonical_charset` and `mutt_is_us_ascii`. -/
def rfc2047_encode (cv : Conv)
    (convFull : List Nat → List Nat → List Nat → Option (Nat × List Nat))
    (canon : List Nat → List Nat) (isAsc : List Nat → Bool)
    (d : List Nat) (col : Nat) (fromcode : List Nat) (charsets : List Nat)
    (specials : Option (List Nat)) : Option EncResult :=
  match convFull fromcode utf8Name d with
  | some (0, u) => encodeCore cv convFull canon isAsc col fromcode charsets specials 0 (some utf8Name) u
  | some (_ + 1, _) => encodeCore cv convFull canon isAsc col fromcode charsets specials 1 none d
  | none => encodeCore cv convFull canon isAsc col fromcode charsets specials 1 none d

/-- The characters excluded from a charset name by `find_encoded_word`:
`"()<>@,;:\"/[]?.="`. -/
def excChars : List Nat := [40, 41, 60, 62, 64, 44, 59, 58, 34, 47, 91, 93, 63, 46, 61]

/-- The codec letters `B`, `b`, `Q`, `q`. -/
def bqChars : List Nat := [66, 98, 81, 113]

/-- The charset-name scan of `find_encoded_word`:
`for (q = p+2; 0x20 < *q && *q < 0x7f && !strchr(exc, *q); q++)`, fueled. -/
def charsetScanGo (s : List Nat) : Nat → Nat → Nat
  | 0, q => q
  | f + 1, q =>
    if 32 < s.getD q 0 ∧ s.getD q 0 < 127 ∧ excChars.contains (s.getD q 0) = false then
      charsetScanGo s f (q + 1)
    else q

/-- Entry point of the charset-name scan. -/
def charsetScan (s : List Nat) (q : Nat) : Nat := charsetScanGo s (s.length + 1) q

/-- The payload scan of `find_encoded_word`:
`for (q += 3; 0x20 <= *q && *q < 0x7f && (*q != '?' || q[1] != '='); q++)`. -/
def payloadScanGo (s : List Nat) : Nat → Nat → Nat
  | 0, q => q
  | f + 1, q =>
    if 32 ≤ s.getD q 0 ∧ s.getD q 0 < 127 ∧
        ¬(s.getD q 0 = 63 ∧ s.getD (q + 1) 0 = 61) then
      payloadScanGo s f (q + 1)
    else q

/-- Entry point of the payload scan. -/
def payloadScan (s : List Nat) (q : Nat) : Nat := payloadScanGo s (s.length + 1) q

/-- `strstr(q, "=?")` as an index search, fueled. -/
def findMarkerGo (s : List Nat) : Nat → Nat → Option Nat
  | 0, _ => none
  | f + 1, i =>
    if s.length ≤ i then none
    else if s.getD i 0 = 61 ∧ s.getD (i + 1) 0 = 63 then some i
    else findMarkerGo s f (i + 1)

/-- Find the next `=?` marker at or after index `i`. -/
def findMarker (s : List Nat) (i : Nat) : Option Nat := findMarkerGo s (s.length + 1) i

/-- One grammar attempt of `find_encoded_word` at the marker position `p`:
either the matched word's `(start, end-after-"?=")`, or the index from which
the search resumes (`inr`). -/
def few_attempt (s : List Nat) (p : Nat) : (Nat × Nat) ⊕ Nat :=
  let q1 := charsetScan s (p + 2)
  if s.getD q1 0 = 63 ∧ bqChars.contains (s.getD (q1 + 1) 0) = true ∧
      s.getD (q1 + 2) 0 = 63 then
    let q2 := payloadScan s (q1 + 3)
    if s.getD q2 0 = 63 ∧ s.getD (q2 + 1) 0 = 61 then Sum.inl (p, q2 + 2)
    else Sum.inr (q2 - 1)
  else Sum.inr q1

/-- The scanner loop of `find_encoded_word`, fueled: `none` means the fuel
ran out, `some none` means no encoded word. -/
def few_go (s : List Nat) : Nat → Nat → Option (Option (Nat × Nat))
  | 0, _ => none
  | f + 1, i =>
    match findMarker s i with
    | none => some none
    | some p =>
      match few_attempt s p with
      | Sum.inl r => some (some r)
      | Sum.inr resume => few_go s f resume

/-- `find_encoded_word`: limits of the first encoded word, as indices. -/
def few (s : List Nat) : Option (Nat × Nat) :=
  (few_go s (s.length + 3) 0).join

/-- `hexval`: value of one hex digit (upper or lower case), if valid. -/
def hexval (c : Nat) : Option Nat :=
  if 48 ≤ c ∧ c ≤ 57 then some (c - 48)
  else if 65 ≤ c ∧ c ≤ 70 then some (c - 55)
  else if 97 ≤ c ∧ c ≤ 102 then some (c - 87)
  else none

/-- The Quoted-Printable payload parse of `rfc2047_decode_word` (codec `Q`):
`_` becomes space, `=XX` with two valid hex digits becomes that byte, and
any other byte — including a malformed `=` — is copied through verbatim. -/
def qp_decode : List Nat → List Nat
  | [] => []
  | 95 :: rest => 32 :: qp_decode rest
  | 61 :: c1 :: c2 :: rest =>
    match hexval c1, hexval c2 with
    | some h1, some h2 => (h1 * 16 + h2) :: qp_decode rest
    | _, _ => 61 :: qp_decode (c1 :: c2 :: rest)
  | c :: rest => c :: qp_decode rest

/-- Modelled from the spec: the standard Base64 digit value table of the
external `base64val` (bytes with the high bit set are already rejected by
the caller and fall outside every range here). -/
def base64val (c : Nat) : Option Nat :=
  if 65 ≤ c ∧ c ≤ 90 then some (c - 65)
  else if 97 ≤ c ∧ c ≤ 122 then some (c - 71)
  else if 48 ≤ c ∧ c ≤ 57 then some (c + 4)
  else if c = 43 then some 62
  else if c = 47 then some 63
  else none

/-- The Base64 payload parse of `rfc2047_decode_word` (codec `B`): the
bit-accumulator loop with `b` and `k`, stopping at `=`, skipping bytes
outside the alphabet; each emitted byte is truncated to 8 bits by the
`char` store. -/
def b64_go : List Nat → Nat → Nat → List Nat
  | [], _, _ => []
  | c :: rest, b, k =>
    if c = 61 then []
    else
      match base64val c with
      | none => b64_go rest b k
      | some v =>
        if 8 ≤ k + 6 then
          (b ||| v >>> (k - 2)) % 256 :: b64_go rest (v <<< (8 - (k - 2))) (k - 2)
        else b64_go rest (b ||| v <<< (k + 2)) (k + 6)

/-- Base64 payload decoding entry point. -/
def b64_decode (l : List Nat) : List Nat := b64_go l 0 0

/-- Index of the next `?` at or after `i` (`strchr(pp, '?')`), fueled. -/
def strchrQGo (s : List Nat) : Nat → Nat → Option Nat
  | 0, _ => none
  | f + 1, i =>
    if s.length ≤ i then none
    else if s.getD i 0 = 63 then some i
    else strchrQGo s f (i + 1)

/-- Index of the next `?` at or after `i`. -/
def strchrQ (s : List Nat) (i : Nat) : Option Nat := strchrQGo s (s.length + 1) i

/-- The `count == 4` hack of `rfc2047_decode_word`: advance over `?`s until
one is followed by `=`; `none` models falling off the string (error). -/
def hackScan (s : List Nat) : Nat → Nat → Option Nat
  | 0, _ => none
  | f + 1, j =>
    if s.getD (j + 1) 0 = 61 then some j
    else
      match strchrQ s (j + 1) with
      | none => none
      | some j2 => hackScan s f j2

/-- Index of the first `*` in `[a, b)` of `s`, if any (the RFC 2231
language-tag truncation in the charset field). -/
def starBefore (s : List Nat) (a b : Nat) : Option Nat :=
  ((List.range b).filter (fun j => a ≤ j ∧ j < b ∧ s.getD j 0 = 42)).head?

/-- Outcome of the `?`-splitting loop of `rfc2047_decode_word`. -/
inductive DWOut where
  | fuelOut
  | err
  | done (charset : Option (List Nat)) (acc : List Nat)
deriving DecidableEq

/-- The `?`-splitting loop of `rfc2047_decode_word`:
`for (pp = s; (pp1 = strchr(pp, '?')); pp = pp1 + 1)` with the `count`
switch.  `acc` is the decoded payload (the C buffer is only written at
`count == 4`; it is modelled as initially empty). -/
def dw_go (s : List Nat) : Nat → Nat → Nat → Option (List Nat) → Nat →
    List Nat → DWOut
  | 0, _, _, _, _, _ => .fuelOut
  | f + 1, pp, count, charset, enc, acc =>
    match strchrQ s pp with
    | none => .done charset acc
    | some pp1a =>
      let count1 := count + 1
      match (if count1 = 4 then hackScan s (s.length + 1) pp1a else some pp1a) with
      | none => .err
      | some pp1 =>
        if count1 = 2 then
          let t := match starBefore s pp pp1 with
            | some t1 => t1
            | none => pp1
          dw_go s f (pp1 + 1) count1 (some (sliceL s pp t)) enc acc
        else if count1 = 3 then
          if lowerByte (s.getD pp 0) = 113 then
            dw_go s f (pp1 + 1) count1 charset 1 acc
          else if lowerByte (s.getD pp 0) = 98 then
            dw_go s f (pp1 + 1) count1 charset 2 acc
          else .err
        else if count1 = 4 then
          let acc1 :=
            if enc = 1 then qp_decode (sliceL s pp pp1)
            else if enc = 2 then b64_decode (sliceL s pp pp1)
            else acc
          dw_go s f (pp1 + 1) count1 charset enc acc1
        else dw_go s f (pp1 + 1) count1 charset enc acc

/-- The conversion-and-filter tail of `rfc2047_decode_word` (before the
`strfcpy` truncation): convert from the declared charset to the display
charset (best effort, modelled by `convDisp`), then filter unprintable
bytes (modelled by `filterUnpr`). -/
def dwCore (convDisp : List Nat → List Nat → List Nat)
    (filterUnpr : List Nat → List Nat) (s : List Nat) : Option (List Nat) :=
  match dw_go s (s.length + 1) 0 0 none 0 [] with
  | .fuelOut => none
  | .err => none
  | .done charset acc =>
    let d0 := match charset with
      | some cs => convDisp cs acc
      | none => acc
    some (filterUnpr d0)

/-- `rfc2047_decode_word`: decode the word starting at `s` (which extends to
the end of the input), truncated by `strfcpy` to the remaining capacity
`len` (at most `len - 1` bytes). -/
def rfc2047_decode_word (convDisp : List Nat → List Nat → List Nat)
    (filterUnpr : List Nat → List Nat) (s : List Nat) (len : Nat) :
    Option (List Nat) :=
  (dwCore convDisp filterUnpr s).map (fun d0 => d0.take (len - 1))

/-- Modelled from the spec: a linear-white-space byte (the character set
`" \t\r\n"` used by the external `lwslen`/`lwsrlen` helpers and by
`strspn(s, " \t\r\n")`). -/
def isLws (c : Nat) : Bool := c == 32 || c == 9 || c == 13 || c == 10

/-- Modelled from the spec: `lwslen(s, n)` — length of the leading run of
linear white space within the first `n` bytes. -/
def lwslen (s : List Nat) (n : Nat) : Nat := ((s.take n).takeWhile isLws).length

/-- Modelled from the spec: `lwsrlen(s, n)` — length of the trailing run of
linear white space within the first `n` bytes. -/
def lwsrlen (s : List Nat) (n : Nat) : Nat := ((s.take n).reverse.takeWhile isLws).length

/-- The injected configuration and external collaborators of the decoder. -/
structure DecCfg where
  /-- the `OPT_IGNORE_LINEAR_WHITE_SPACE` option -/
  ignoreLWS : Bool
  /-- the `AssumedCharset` configuration string (`[]` = not configured) -/
  assumed : List Nat
  /-- `convert_string(u, ulen, fromcode, Charset, …)`: full conversion to the
  display charset, returning iconv's inexact count and the output -/
  cnvString : List Nat → List Nat → Option (Nat × List Nat)
  /-- `mutt_convert_string` from the default charset (best effort) -/
  fallback : List Nat → List Nat
  /-- `mutt_convert_string(&d0, charset, Charset, …)` (best effort) -/
  convDisp : List Nat → List Nat → List Nat
  /-- `mutt_filter_unprintable` -/
  filterUnpr : List Nat → List Nat

/-- The candidate loop of `convert_nonmime_string`: try each colon-separated
assumed charset in turn; an empty segment stops with the text unchanged; if
every candidate fails, fall back to converting from the default charset. -/
def cnmGo (cfg : DecCfg) (u : List Nat) : List (List Nat) → List Nat
  | [] => cfg.fallback u
  | seg :: rest =>
    if seg = [] then u
    else
      match cfg.cnvString seg u with
      | some (_, out) => out
      | none => cnmGo cfg u rest

/-- `convert_nonmime_string`: the assumed-legacy-charset fallback conversion
of a whole string. -/
def convert_nonmime_string (cfg : DecCfg) (u : List Nat) : List Nat :=
  if u = [] then u else cnmGo cfg u (splitColonGo cfg.assumed [])

/-- Gap handling of `rfc2047_decode` for the literal text `s[0 .. p)` before
the next encoded word; returns the updated remaining capacity and output. -/
def decStepGap (cfg : DecCfg) (s : List Nat) (p : Nat) (found : Bool)
    (dlen : Nat) (acc : List Nat) : Nat × List Nat :=
  if cfg.ignoreLWS then
    let m1 := lwslen s p
    let st1 : List Nat × Nat × Nat × List Nat :=
      if found ∧ m1 ≠ 0 then
        (s.drop m1, p - m1, (if m1 ≠ p then dlen - 1 else dlen),
         (if m1 ≠ p then acc ++ [32] else acc))
      else (s, p, dlen, acc)
    let s1 := st1.1
    let n1 := st1.2.1
    let dlen1 := st1.2.2.1
    let acc1 := st1.2.2.2
    let m2 := n1 - lwsrlen s1 n1
    if m2 ≠ 0 then
      let m2c := min m2 dlen1
      if m2c ≠ n1 then (dlen1 - m2c - 1, acc1 ++ s1.take m2c ++ [32])
      else (dlen1 - m2c, acc1 ++ s1.take m2c)
    else (dlen1, acc1)
  else
    if ¬found ∨ lwslen s p ≠ p then
      (dlen - min p dlen, acc ++ s.take (min p dlen))
    else (dlen, acc)

/-- The no-more-encoded-words tail of `rfc2047_decode`: optional white-space
collapsing, then either the assumed-charset fallback conversion or a plain
(capacity-truncated) copy. -/
def decTail (cfg : DecCfg) (s : List Nat) (found : Bool) (dlen : Nat)
    (acc : List Nat) : List Nat :=
  let st : List Nat × Nat × List Nat :=
    if cfg.ignoreLWS ∧ found ∧ lwslen s s.length ≠ 0 then
      (s.drop (lwslen s s.length),
       (if lwslen s s.length ≠ s.length then dlen - 1 else dlen),
       (if lwslen s s.length ≠ s.length then acc ++ [32] else acc))
    else (s, dlen, acc)
  let s1 := st.1
  let dlen1 := st.2.1
  let acc1 := st.2.2
  if cfg.assumed ≠ [] then acc1 ++ convert_nonmime_string cfg s1
  else acc1 ++ s1.take dlen1

/-- The main loop of `rfc2047_decode`, fueled. -/
def decLoop (cfg : DecCfg) : Nat → List Nat → Bool → Nat → List Nat →
    Option (List Nat)
  | 0, _, _, _, _ => none
  | fuel + 1, s, found, dlen, acc =>
    if s = [] then some acc
    else if dlen = 0 then some acc
    else
      match few s with
      | none => some (decTail cfg s found dlen acc)
      | some (p, q) =>
        let pr := if p ≠ 0 then decStepGap cfg s p found dlen acc else (dlen, acc)
        let w := match rfc2047_decode_word cfg.convDisp cfg.filterUnpr (s.drop p) pr.1 with
          | some w0 => w0
          | none => (s.drop p).take (pr.1 - 1)
        decLoop cfg fuel (s.drop q) true (pr.1 - w.length) (pr.2 ++ w)

/-- `rfc2047_decode`: decode a whole header field.  The output accumulator
has capacity `4 * strlen(s)`. -/
def rfc2047_decode (cfg : DecCfg) (s : List Nat) : Option (List Nat) :=
  if s = [] then some s
  else decLoop cfg (s.length + 1) s false (4 * s.length) []

/-! ### Concrete model instances used to exercise the definitions -/

/-- A conversion service whose conversions are all the identity and always
fit the output buffer. -/
def cvOkW : Conv := fun _ _ inp _ => IconvRes.ok inp

/-- A whole-string conversion service that is the identity and always exact. -/
def convFullW : List Nat → List Nat → List Nat → Option (Nat × List Nat) :=
  fun _ _ x => some (0, x)

/-- A `mutt_is_us_ascii` that never relabels. -/
def isAscW : List Nat → Bool := fun _ => false

/-- Decoder configuration with white-space collapsing on, no assumed
charset, and identity display conversion/filtering. -/
def cfgW : DecCfg :=
  ⟨true, [], fun _ _ => none, fun x => x, fun _ x => x, fun x => x⟩

/-- Decoder configuration with the assumed legacy charset `"x"` configured,
whose conversion service rewrites `"abc"`-like input to `"XYZ"`. -/
def cfgY : DecCfg :=
  ⟨false, [120], fun fc _ => if fc = [120] then some (0, [88, 89, 90]) else none,
   fun x => x, fun _ x => x, fun x => x⟩

/-- A per-candidate conversion where `"a"` converts with one inexact
character to one byte and `"b"` converts exactly to three bytes. -/
def convC : List Nat → Option (Nat × List Nat) :=
  fun t =>
    if t = [97] then some (1, [0])
    else if t = [98] then some (0, [0, 0, 0])
    else none

/-! ## Basic length and acceptance lemmas -/

theorem is_special_32 : is_special 32 = false := by decide

theorem is_special_of_ne (c : Nat) (h : ¬c = 32) : is_special c = q_escaped c := by
  have hb : (c != 32) = true := by simpa using h
  simp [is_special, q_escaped, hb]

theorem q_body_length (l : List Nat) :
    (q_body l).length = l.length + 2 * (l.filter is_special).length := by
  induction l with
  | nil => simp [q_body]
  | cons c rest ih =>
    by_cases hc : c = 32
    · subst hc
      simp [q_body, List.filter_cons, is_special_32, ih]
      omega
    · by_cases he : q_escaped c = true
      · have hs : is_special c = true := by rw [is_special_of_ne c hc]; exact he
        simp [q_body, hc, he, List.filter_cons, hs, ih]
        omega
      · have hs : is_special c = false := by
          rw [is_special_of_ne c hc]; simpa using he
        simp [q_body, hc, he, List.filter_cons, hs, ih]
        omega

theorem b64_body_length (l : List Nat) :
    (b64_body l).length = (l.length + 2) / 3 * 4 := by
  induction l using b64_body.induct <;> simp [b64_body, *] <;> omega

theorem b_encoder_length (tc d : List Nat) :
    (b_encoder tc d).length = 7 + tc.length + (d.length + 2) / 3 * 4 := by
  simp [b_encoder, b64_body_length]
  omega

theorem q_encoder_length (tc d : List Nat) :
    (q_encoder tc d).length = 7 + tc.length + d.length + 2 * (d.filter is_special).length := by
  simp [q_encoder, q_body_length]
  omega

theorem try_block_tail_accept (tc : List Nat) (n : Nat) (out : List Nat)
    (c : Codec) (w : Nat) (h : try_block_tail tc n out = .accept c w) :
    w ≤ 75 ∧ (run_encoder c tc out).length = w := by
  simp only [try_block_tail, ENCWORD_LEN_MAX, ENCWORD_LEN_MIN] at h
  by_cases hiso : lowerEq tc iso2022jp = true <;>
    simp only [hiso, if_true, if_false, Bool.false_eq_true] at h <;>
    split_ifs at h with h1 h2 <;>
    cases h <;>
    refine ⟨by omega, ?_⟩ <;>
    simp [run_encoder, b_encoder_length, q_encoder_length] <;>
    omega

theorem try_block_tail_spec (tc : List Nat) (n : Nat) (out : List Nat) (lb lq : Nat)
    (hlb : lb = 7 + tc.length + (out.length + 2) / 3 * 4)
    (hlq : lq = if lowerEq tc iso2022jp then 76
      else 7 + tc.length + out.length + 2 * (out.filter is_special).length) :
    ((∃ c w, try_block_tail tc n out = TryRes.accept c w) ↔ min lb lq ≤ 75)
    ∧ (∀ c w, try_block_tail tc n out = TryRes.accept c w → w = min lb lq)
    ∧ (75 < min lb lq → try_block_tail tc n out = TryRes.reject n) := by
  by_cases hiso : lowerEq tc iso2022jp = true
  · rw [if_pos hiso] at hlq
    subst hlb hlq
    simp only [try_block_tail, ENCWORD_LEN_MAX, ENCWORD_LEN_MIN, if_pos hiso]
    split_ifs with h1 h2
    all_goals refine ⟨⟨fun hex => ?_, fun hle => ?_⟩, fun c w hacc => ?_, fun hgt => ?_⟩
    all_goals first
      | omega
      | (exact ⟨_, _, rfl⟩)
      | ((cases hacc) <;> omega)
      | (simp at hacc)
      | (exact absurd hgt (by omega))
      | (exact absurd hle (by omega))
      | rfl
      | (obtain ⟨c, w, hacc⟩ := hex; simp at hacc)
  · rw [if_neg hiso] at hlq
    subst hlb hlq
    simp only [try_block_tail, ENCWORD_LEN_MAX, ENCWORD_LEN_MIN, if_neg hiso]
    split_ifs with h1 h2
    all_goals refine ⟨⟨fun hex => ?_, fun hle => ?_⟩, fun c w hacc => ?_, fun hgt => ?_⟩
    all_goals first
      | omega
      | (exact ⟨_, _, rfl⟩)
      | ((cases hacc) <;> omega)
      | (simp at hacc)
      | (exact absurd hgt (by omega))
      | (exact absurd hle (by omega))
      | rfl
      | (obtain ⟨c, w, hacc⟩ := hex; simp at hacc)

/-- **C2.**  For every byte span that `try_block` successfully converts into
its bounded scratch buffer, giving `out.length` converted bytes of which
`(out.filter is_special).length` are special, the Base64 candidate length is
`7 + |tocode| + 4⌈m/3⌉` and the Quoted-Printable candidate length is
`7 + |tocode| + m + 2k` (forced to 76 for ISO-2022-JP so Base64 is
mandatory); `try_block` accepts exactly when the smaller candidate is at
most 75, with that length, and otherwise rejects with the original span
length as the retry bound. -/
theorem c2_word_fitter_candidates (cv : Conv) (fc tocode d out : List Nat) (lb lq : Nat)
    (hok : cv fc tocode d (scratchCap tocode) = IconvRes.ok out)
    (hlb : lb = 7 + tocode.length + (out.length + 2) / 3 * 4)
    (hlq : lq = if lowerEq tocode iso2022jp then 76
      else 7 + tocode.length + out.length + 2 * (out.filter is_special).length) :
    ((∃ c w, try_block cv (some fc) tocode d = TryRes.accept c w) ↔ min lb lq ≤ 75)
    ∧ (∀ c w, try_block cv (some fc) tocode d = TryRes.accept c w → w = min lb lq)
    ∧ (75 < min lb lq → try_block cv (some fc) tocode d = TryRes.reject d.length) := by
  have h := try_block_tail_spec tocode d.length out lb lq hlb hlq
  simpa [try_block, hok] using h

/-- Witness for C2 at a concrete input: the identity conversion of the
single byte 200 to charset `utf-8` gives candidates `lb = 16`, `lq = 15`,
so `try_block` accepts with length `min 16 15 = 15`. -/
theorem c2_word_fitter_candidates_witness :
    (cvOkW utf8Name utf8Name [200] (scratchCap utf8Name) = IconvRes.ok [200])
    ∧ try_block cvOkW (some utf8Name) utf8Name [200] = TryRes.accept Codec.Q 15
    ∧ 15 = min 16 15 := by
  refine ⟨by decide, by decide, ?_⟩
  exact (c2_word_fitter_candidates cvOkW utf8Name utf8Name [200] [200] 16 15
    (by decide) (by decide) (by decide)).2.1 Codec.Q 15 (by decide)

theorem try_block_tail_codec (tc : List Nat) (n : Nat) (out : List Nat) (lb lq : Nat)
    (hlb : lb = 7 + tc.length + (out.length + 2) / 3 * 4)
    (hlq : lq = if lowerEq tc iso2022jp then 76
      else 7 + tc.length + out.length + 2 * (out.filter is_special).length) :
    (∀ w, try_block_tail tc n out = TryRes.accept Codec.B w → lb < lq)
    ∧ (lb = lq → lq ≤ 75 → try_block_tail tc n out = TryRes.accept Codec.Q lq) := by
  by_cases hiso : lowerEq tc iso2022jp = true
  · rw [if_pos hiso] at hlq
    subst hlb hlq
    simp only [try_block_tail, ENCWORD_LEN_MAX, ENCWORD_LEN_MIN, if_pos hiso]
    split_ifs with h1 h2
    all_goals refine ⟨fun w hacc => ?_, fun htie hle => ?_⟩
    all_goals first
      | omega
      | ((cases hacc) <;> omega)
      | (simp at hacc)
      | (exact absurd hle (by omega))
      | (exact absurd htie (by omega))
      | ((simp only [TryRes.accept.injEq]) <;> omega)
      | ((simp only [TryRes.accept.injEq]) <;> exact ⟨rfl, by omega⟩)
  · rw [if_neg hiso] at hlq
    subst hlb hlq
    simp only [try_block_tail, ENCWORD_LEN_MAX, ENCWORD_LEN_MIN, if_neg hiso]
    split_ifs with h1 h2
    all_goals refine ⟨fun w hacc => ?_, fun htie hle => ?_⟩
    all_goals first
      | omega
      | ((cases hacc) <;> omega)
      | (simp at hacc)
      | (exact absurd hle (by omega))
      | (exact absurd htie (by omega))
      | ((simp only [TryRes.accept.injEq]) <;> omega)
      | ((simp only [TryRes.accept.injEq]) <;> exact ⟨rfl, by omega⟩)

/-- **C10.**  When `try_block` has both candidate lengths available, Base64
is selected only when its candidate length is strictly smaller than
Quoted-Printable's; on a tie that fits, Quoted-Printable is selected. -/
theorem c10_tie_prefers_qp (cv : Conv) (fc tocode d out : List Nat) (lb lq : Nat)
    (hok : cv fc tocode d (scratchCap tocode) = IconvRes.ok out)
    (hlb : lb = 7 + tocode.length + (out.length + 2) / 3 * 4)
    (hlq : lq = if lowerEq tocode iso2022jp then 76
      else 7 + tocode.length + out.length + 2 * (out.filter is_special).length) :
    (∀ w, try_block cv (some fc) tocode d = TryRes.accept Codec.B w → lb < lq)
    ∧ (lb = lq → lq ≤ 75 → try_block cv (some fc) tocode d = TryRes.accept Codec.Q lq) := by
  have h := try_block_tail_codec tocode d.length out lb lq hlb hlq
  simpa [try_block, hok] using h

/-- Witness for C10 at a concrete input: converting the six bytes
`[200, 97, 97, 97, 97, 97]` (one special) gives `lb = lq = 20`; the tie
fits and Quoted-Printable is chosen. -/
theorem c10_tie_prefers_qp_witness :
    (cvOkW utf8Name utf8Name [200, 97, 97, 97, 97, 97] (scratchCap utf8Name)
        = IconvRes.ok [200, 97, 97, 97, 97, 97])
    ∧ try_block cvOkW (some utf8Name) utf8Name [200, 97, 97, 97, 97, 97]
        = TryRes.accept Codec.Q 20 := by
  refine ⟨by decide, ?_⟩
  exact (c10_tie_prefers_qp cvOkW utf8Name utf8Name [200, 97, 97, 97, 97, 97]
    [200, 97, 97, 97, 97, 97] 20 20
    (by decide) (by decide) (by decide)).2 (by decide) (by decide)

/-! ## Boundary-searcher lemmas -/

theorem cbBackoff_le (d : List Nat) : ∀ m, cbBackoff d m ≤ m := by
  intro m
  induction m using Nat.strong_induction_on with
  | _ m ih =>
    match m with
    | 0 => simp [cbBackoff]
    | 1 => simp [cbBackoff]
    | n + 2 =>
      simp only [cbBackoff]
      split
      · exact le_trans (ih (n + 1) (by omega)) (by omega)
      · exact le_refl _

theorem cbBackoff_pos (d : List Nat) : ∀ m, 1 ≤ m → 1 ≤ cbBackoff d m := by
  intro m
  induction m using Nat.strong_induction_on with
  | _ m ih =>
    match m with
    | 0 => omega
    | 1 => intro _; simp [cbBackoff]
    | n + 2 =>
      intro _
      simp only [cbBackoff]
      split
      · exact ih (n + 1) (by omega) (by omega)
      · omega

theorem cbStep_le (u8 : Bool) (d : List Nat) (m : Nat) : cbStep u8 d m ≤ m := by
  unfold cbStep
  split
  · exact cbBackoff_le d m
  · exact le_refl _

theorem cbStep_pos (u8 : Bool) (d : List Nat) (m : Nat) (h : 1 ≤ m) :
    1 ≤ cbStep u8 d m := by
  unfold cbStep
  split
  · exact cbBackoff_pos d m h
  · exact h

theorem try_block_tail_reject (tc : List Nat) (n : Nat) (out : List Nat) (nn : Nat)
    (h : try_block_tail tc n out = TryRes.reject nn) : nn = n := by
  simp only [try_block_tail] at h
  split_ifs at h <;> (simp at h) <;> omega

theorem try_block_reject_bounds (cv : Conv) (fc : Option (List Nat))
    (tc s : List Nat) (nn : Nat)
    (hwf : ∀ f t inp obl k, cv f t inp obl = IconvRes.e2big k → 0 < k ∧ k ≤ inp.length)
    (htc : tc.length ≤ 66) (hs2 : 2 ≤ s.length)
    (h : try_block cv fc tc s = TryRes.reject nn) :
    2 ≤ nn ∧ nn ≤ s.length := by
  cases fc with
  | some f =>
    simp only [try_block] at h
    cases hcv : cv f tc s (scratchCap tc) with
    | e2big k =>
      rw [hcv] at h
      obtain ⟨hk0, hkl⟩ := hwf f tc s (scratchCap tc) k hcv
      by_cases hke : k = s.length
      · simp only [hke, beq_self_eq_true, if_true] at h
        cases h
        omega
      · have : (k == s.length) = false := by simpa using hke
        simp only [this, Bool.false_eq_true, if_false] at h
        cases h
        omega
    | ok out =>
      rw [hcv] at h
      have := try_block_tail_reject tc s.length out nn h
      omega
  | none =>
    simp only [try_block] at h
    split_ifs at h with hover
    · cases h
      simp only [scratchCap, ENCWORD_LEN_MAX, ENCWORD_LEN_MIN] at hover ⊢
      omega
    · have := try_block_tail_reject tc s.length s nn h
      omega

theorem try_block_accept_ne_one (cv : Conv) (fc : Option (List Nat))
    (tc d : List Nat) (nn : Nat)
    (h1 : ∃ c w, try_block cv fc tc (d.take 1) = TryRes.accept c w)
    (htb : try_block cv fc tc (d.take 1) = TryRes.reject nn) : False := by
  obtain ⟨c, w, hacc⟩ := h1
  rw [hacc] at htb
  simp at htb

/-- **C4.**  For every span, starting column, source charset and target
charset, and for a conversion service satisfying iconv's contract
(`E2BIG` consumes a positive prefix of the input) such that a one-byte span
is accepted, the `choose_block` loop terminates: any fuel at least the
initial trial length suffices (so the trial length strictly decreases and
stays positive on every iteration), and the accepted prefix length returned
on exit is strictly positive. -/
theorem c4_choose_block_terminates (cv : Conv) (icode : Option (List Nat))
    (tc d : List Nat) (col : Nat)
    (hwf : ∀ f t inp obl k, cv f t inp obl = IconvRes.e2big k → 0 < k ∧ k ≤ inp.length)
    (h1 : ∃ c w, try_block cv icode tc (d.take 1) = TryRes.accept c w)
    (htc : tc.length ≤ 66) :
    (∀ fuel n, 0 < n → n ≤ d.length → n ≤ fuel →
      ∃ n2 c w, choose_block_go cv icode tc d col fuel n = some (n2, c, w) ∧ 0 < n2)
    ∧ (0 < d.length →
      ∃ n2 c w, choose_block cv icode tc d col = some (n2, c, w) ∧ 0 < n2) := by
  have main : ∀ fuel n, 0 < n → n ≤ d.length → n ≤ fuel →
      ∃ n2 c w, choose_block_go cv icode tc d col fuel n = some (n2, c, w) ∧ 0 < n2 := by
    intro fuel
    induction fuel with
    | zero => intro n h0 _ hf; omega
    | succ f ih =>
      intro n hn0 hnd hnf
      simp only [choose_block_go]
      cases htb : try_block cv icode tc (d.take n) with
      | accept c0 w0 =>
        dsimp only
        by_cases hc : col + w0 ≤ ENCWORD_LEN_MAX + 1 ∨ n ≤ 1
        · rw [if_pos hc]
          exact ⟨n, c0, w0, rfl, hn0⟩
        · rw [if_neg hc]
          have hn2 : 2 ≤ n := by omega
          have hp := cbStep_pos (isUtf8 icode) d (n - 1) (by omega)
          have hl := cbStep_le (isUtf8 icode) d (n - 1)
          exact ih (cbStep (isUtf8 icode) d (n - 1)) hp (by omega) (by omega)
      | reject nn =>
        dsimp only
        have hne : n ≠ 1 := by
          rintro rfl
          exact try_block_accept_ne_one cv icode tc d nn h1 htb
        have hn2 : 2 ≤ n := by omega
        have hs2 : 2 ≤ (d.take n).length := by
          rw [List.length_take]
          omega
        obtain ⟨hnn2, hnnle⟩ :=
          try_block_reject_bounds cv icode tc (d.take n) nn hwf htc hs2 htb
        rw [List.length_take] at hnnle
        have hp := cbStep_pos (isUtf8 icode) d (nn - 1) (by omega)
        have hl := cbStep_le (isUtf8 icode) d (nn - 1)
        exact ih (cbStep (isUtf8 icode) d (nn - 1)) hp (by omega) (by omega)
  refine ⟨main, fun hd => ?_⟩
  exact main (d.length + 1) d.length hd (le_refl _) (by omega)

/-- Witness for C4 at a concrete input: with the identity conversion
service and a three-byte span, `choose_block` returns an accepted prefix of
positive length. -/
theorem c4_choose_block_terminates_witness :
    (try_block cvOkW (some utf8Name) utf8Name ([200, 201, 202].take 1)
        = TryRes.accept Codec.Q 15)
    ∧ (0 < ([200, 201, 202] : List Nat).length)
    ∧ (choose_block cvOkW (some utf8Name) utf8Name [200, 201, 202] 0).isSome
        = true := by
  refine ⟨by decide, by decide, ?_⟩
  obtain ⟨n2, c, w, h, hp⟩ :=
    (c4_choose_block_terminates cvOkW (some utf8Name) utf8Name [200, 201, 202] 0
      (fun f t inp obl k h => by simp [cvOkW] at h) ⟨Codec.Q, 15, by decide⟩
      (by decide)).2 (by decide)
  rw [h]
  rfl

/-! ## The encoded-word length invariant (C1) -/

theorem try_block_accept_word (cv : Conv) (fc : Option (List Nat))
    (tc s : List Nat) (c : Codec) (w : Nat)
    (h : try_block cv fc tc s = TryRes.accept c w) :
    ∃ word, encode_block cv fc tc s c = some word ∧ word.length = w ∧ w ≤ 75 := by
  cases fc with
  | some f =>
    simp only [try_block] at h
    simp only [encode_block]
    cases hcv : cv f tc s (scratchCap tc) with
    | e2big k =>
      rw [hcv] at h
      simp at h
    | ok out =>
      rw [hcv] at h
      obtain ⟨hle, hlen⟩ := try_block_tail_accept tc s.length out c w h
      exact ⟨_, rfl, hlen, hle⟩
  | none =>
    simp only [try_block] at h
    simp only [encode_block]
    split_ifs at h with hover
    obtain ⟨hle, hlen⟩ := try_block_tail_accept tc s.length s c w h
    exact ⟨_, rfl, hlen, hle⟩

theorem try_block_reject_le (cv : Conv) (fc : Option (List Nat))
    (tc s : List Nat) (nn : Nat)
    (hwfle : ∀ f t inp obl k, cv f t inp obl = IconvRes.e2big k → k ≤ inp.length)
    (h : try_block cv fc tc s = TryRes.reject nn) : nn ≤ s.length := by
  cases fc with
  | some f =>
    simp only [try_block] at h
    cases hcv : cv f tc s (scratchCap tc) with
    | e2big k =>
      rw [hcv] at h
      have hkl := hwfle f tc s (scratchCap tc) k hcv
      by_cases hke : k = s.length
      · simp only [hke, beq_self_eq_true, if_true] at h
        cases h
        omega
      · have hb : (k == s.length) = false := by simpa using hke
        simp only [hb, Bool.false_eq_true, if_false] at h
        cases h
        omega
    | ok out =>
      rw [hcv] at h
      have := try_block_tail_reject tc s.length out nn h
      omega
  | none =>
    simp only [try_block] at h
    split_ifs at h with hover
    · cases h
      omega
    · have := try_block_tail_reject tc s.length s nn h
      omega

theorem choose_block_go_accept (cv : Conv) (fc : Option (List Nat))
    (tc d : List Nat) (col : Nat)
    (hwfle : ∀ f t inp obl k, cv f t inp obl = IconvRes.e2big k → k ≤ inp.length) :
    ∀ fuel n n2 c w, n ≤ d.length →
      choose_block_go cv fc tc d col fuel n = some (n2, c, w) →
      try_block cv fc tc (d.take n2) = TryRes.accept c w ∧ n2 ≤ d.length := by
  intro fuel
  induction fuel with
  | zero => intro n n2 c w _ h; simp [choose_block_go] at h
  | succ f ih =>
    intro n n2 c w hnd h
    simp only [choose_block_go] at h
    cases htb : try_block cv fc tc (d.take n) with
    | accept c0 w0 =>
      rw [htb] at h
      dsimp only at h
      by_cases hc : col + w0 ≤ ENCWORD_LEN_MAX + 1 ∨ n ≤ 1
      · rw [if_pos hc] at h
        cases h
        exact ⟨htb, hnd⟩
      · rw [if_neg hc] at h
        have hl := cbStep_le (isUtf8 fc) d (n - 1)
        exact ih _ n2 c w (by omega) h
    | reject nn =>
      rw [htb] at h
      dsimp only at h
      have hnn := try_block_reject_le cv fc tc (d.take n) nn hwfle htb
      rw [List.length_take] at hnn
      have hl := cbStep_le (isUtf8 fc) d (nn - 1)
      exact ih _ n2 c w (by omega) h

theorem choose_block_accept (cv : Conv) (fc : Option (List Nat))
    (tc d : List Nat) (col : Nat) (n2 : Nat) (c : Codec) (w : Nat)
    (hwfle : ∀ f t inp obl k, cv f t inp obl = IconvRes.e2big k → k ≤ inp.length)
    (h : choose_block cv fc tc d col = some (n2, c, w)) :
    try_block cv fc tc (d.take n2) = TryRes.accept c w ∧ n2 ≤ d.length :=
  choose_block_go_accept cv fc tc d col hwfle (d.length + 1) d.length n2 c w
    (le_refl _) h

theorem encodeLoop_words (cv : Conv) (icode : Option (List Nat)) (tc u : List Nat)
    (hwfle : ∀ f t inp obl k, cv f t inp obl = IconvRes.e2big k → k ≤ inp.length) :
    ∀ fuel t t1 col ws t1f, encodeLoop cv icode tc u fuel t t1 col = some (ws, t1f) →
      ∀ w ∈ ws, w.length ≤ 75 := by
  intro fuel
  induction fuel with
  | zero => intro t t1 col ws t1f h; simp [encodeLoop] at h
  | succ f ih =>
    intro t t1 col ws t1f h
    simp only [encodeLoop] at h
    cases hcb : choose_block cv icode tc (sliceL u t t1) col with
    | none => rw [hcb] at h; simp at h
    | some r =>
      obtain ⟨n, c0, w0⟩ := r
      rw [hcb] at h
      dsimp only at h
      obtain ⟨htb, hn⟩ := choose_block_accept cv icode tc (sliceL u t t1) col n c0 w0 hwfle hcb
      by_cases hb1 : n = t1 - t ∧ col + w0 + (u.length - t1) ≤ ENCWORD_LEN_MAX + 1
      · rw [if_pos hb1] at h
        have hfull : (sliceL u t t1).take n = sliceL u t t1 := by
          apply List.take_of_length_le
          rw [hb1.1]
          simp [sliceL, List.length_take]
        rw [hfull] at htb
        obtain ⟨word, heq, hwl, hw75⟩ :=
          try_block_accept_word cv icode tc (sliceL u t t1) c0 w0 htb
        rw [heq] at h
        dsimp only at h
        cases h
        intro w hw
        simp at hw
        subst hw
        omega
      · rw [if_neg hb1] at h
        by_cases hb2 : n = t1 - t
        · rw [if_pos hb2] at h
          by_cases hz : backContRelIf u icode t (t1 - t - 1) = 0
          · rw [if_pos hz] at h
            exact ih _ _ _ _ _ h
          · rw [if_neg hz] at h
            cases hcb2 : choose_block cv icode tc
                ((u.drop t).take (backContRelIf u icode t (t1 - t - 1))) col with
            | none => rw [hcb2] at h; simp at h
            | some r2 =>
              obtain ⟨n2, c2, w2⟩ := r2
              rw [hcb2] at h
              dsimp only at h
              obtain ⟨htb2, hn2⟩ := choose_block_accept cv icode tc
                ((u.drop t).take (backContRelIf u icode t (t1 - t - 1))) col n2 c2 w2
                hwfle hcb2
              rw [List.length_take] at hn2
              have hcoll : ((u.drop t).take (backContRelIf u icode t (t1 - t - 1))).take n2
                  = (u.drop t).take n2 := by
                rw [List.take_take]
                congr 1
                omega
              rw [hcoll] at htb2
              obtain ⟨word, heq, hwl, hw75⟩ :=
                try_block_accept_word cv icode tc ((u.drop t).take n2) c2 w2 htb2
              rw [heq] at h
              dsimp only at h
              cases hrec : encodeLoop cv icode tc u f (t + n2) t1 1 with
              | none => rw [hrec] at h; simp at h
              | some p =>
                obtain ⟨ws0, t1f0⟩ := p
                rw [hrec] at h
                dsimp only at h
                cases h
                intro w hw
                simp at hw
                rcases hw with hw | hw
                · subst hw; omega
                · exact ih _ _ _ _ _ hrec w hw
        · rw [if_neg hb2] at h
          have hcoll : (sliceL u t t1).take n = (u.drop t).take n := by
            simp only [sliceL, List.take_take]
            congr 1
            simp only [sliceL, List.length_take] at hn
            omega
          rw [hcoll] at htb
          obtain ⟨word, heq, hwl, hw75⟩ :=
            try_block_accept_word cv icode tc ((u.drop t).take n) c0 w0 htb
          rw [heq] at h
          dsimp only at h
          cases hrec : encodeLoop cv icode tc u f (t + n) t1 1 with
          | none => rw [hrec] at h; simp at h
          | some p =>
            obtain ⟨ws0, t1f0⟩ := p
            rw [hrec] at h
            dsimp only at h
            cases h
            intro w hw
            simp at hw
            rcases hw with hw | hw
            · subst hw; omega
            · exact ih _ _ _ _ _ hrec w hw

theorem encodeStage2_words (cv : Conv) (isAsc : List Nat → Bool) (u : List Nat)
    (col t0b t1b ret1 : Nat) (icode1 : Option (List Nat)) (tocode0 : List Nat)
    (r : EncResult)
    (hwfle : ∀ f t inp obl k, cv f t inp obl = IconvRes.e2big k → k ≤ inp.length)
    (h : encodeStage2 cv isAsc u col t0b t1b ret1 icode1 tocode0 = some r) :
    ∀ w ∈ r.words, w.length ≤ 75 := by
  simp only [encodeStage2] at h
  cases hel : encodeLoop cv icode1
      (if icode1 = none ∧ isAsc tocode0 = true then unknown8bit else tocode0) u
      (2 * u.length + 2)
      (adjust_t0 cv icode1
        (if icode1 = none ∧ isAsc tocode0 = true then unknown8bit else tocode0) u col
        (min t0b (ENCWORD_LEN_MAX + 1 - col - ENCWORD_LEN_MIN)))
      (adjust_t1 cv icode1
        (if icode1 = none ∧ isAsc tocode0 = true then unknown8bit else tocode0) u t1b)
      (col + adjust_t0 cv icode1
        (if icode1 = none ∧ isAsc tocode0 = true then unknown8bit else tocode0) u col
        (min t0b (ENCWORD_LEN_MAX + 1 - col - ENCWORD_LEN_MIN))) with
  | none => rw [hel] at h; simp at h
  | some p =>
    obtain ⟨ws, t1f⟩ := p
    rw [hel] at h
    dsimp only at h
    cases h
    exact encodeLoop_words cv icode1 _ u hwfle _ _ _ _ _ _ hel

theorem encodeCore_words (cv : Conv)
    (convFull : List Nat → List Nat → List Nat → Option (Nat × List Nat))
    (canon : List Nat → List Nat) (isAsc : List Nat → Bool) (col : Nat)
    (fromcode charsets : List Nat) (specials : Option (List Nat))
    (ret0 : Nat) (icode0 : Option (List Nat)) (u : List Nat) (r : EncResult)
    (hwfle : ∀ f t inp obl k, cv f t inp obl = IconvRes.e2big k → k ≤ inp.length)
    (h : encodeCore cv convFull canon isAsc col fromcode charsets specials
      ret0 icode0 u = some r) :
    ∀ w ∈ r.words, w.length ≤ 75 := by
  simp only [encodeCore] at h
  cases hh : ((List.range u.length).filter (fun t => cond1 u t)).head? with
  | none =>
    rw [hh] at h
    dsimp only at h
    cases h
    intro w hw
    simp at hw
  | some t0a =>
    rw [hh] at h
    dsimp only at h
    cases icode0 with
    | none => exact encodeStage2_words cv isAsc u col _ _ _ none fromcode r hwfle h
    | some ic =>
      dsimp only at h
      cases hmc : mutt_choose_charset canon (fun t => convFull ic t u) charsets with
      | none =>
        rw [hmc] at h
        exact encodeStage2_words cv isAsc u col _ _ _ none fromcode r hwfle h
      | some tc =>
        obtain ⟨tcn, tcb⟩ := tc
        rw [hmc] at h
        exact encodeStage2_words cv isAsc u col _ _ _ (some ic) tcn r hwfle h

/-- **C1.**  For every input string, starting column, source charset,
candidate charset list and specials set (and any conversion service
satisfying iconv's contract that a failed conversion consumes at most the
input), every encoded word emitted by `rfc2047_encode` has length at most
75 (`ENCWORD_LEN_MAX`). -/
theorem c1_encoded_word_len_max (cv : Conv)
    (convFull : List Nat → List Nat → List Nat → Option (Nat × List Nat))
    (canon : List Nat → List Nat) (isAsc : List Nat → Bool)
    (d : List Nat) (col : Nat) (fromcode charsets : List Nat)
    (specials : Option (List Nat)) (r : EncResult)
    (hwfle : ∀ f t inp obl k, cv f t inp obl = IconvRes.e2big k → k ≤ inp.length)
    (h : rfc2047_encode cv convFull canon isAsc d col fromcode charsets specials
      = some r) :
    ∀ w ∈ r.words, w.length ≤ ENCWORD_LEN_MAX := by
  simp only [ENCWORD_LEN_MAX]
  simp only [rfc2047_encode] at h
  cases hcf : convFull fromcode utf8Name d with
  | none =>
    rw [hcf] at h
    exact encodeCore_words cv convFull canon isAsc col fromcode charsets specials
      1 none d r hwfle h
  | some p =>
    obtain ⟨nx, ux⟩ := p
    rw [hcf] at h
    cases nx with
    | zero =>
      exact encodeCore_words cv convFull canon isAsc col fromcode charsets specials
        0 (some utf8Name) ux r hwfle h
    | succ nx0 =>
      exact encodeCore_words cv convFull canon isAsc col fromcode charsets specials
        1 none d r hwfle h

/-- Witness for C1 at a concrete input: encoding the single byte 200 with
the identity conversion service emits exactly one encoded word
`=?utf-8?Q?=C8?=`, of length 15 ≤ 75. -/
theorem c1_encoded_word_len_max_witness :
    (rfc2047_encode cvOkW convFullW (fun x => x) isAscW [200] 0 utf8Name utf8Name none
      = some ⟨0, [], [[61, 63, 117, 116, 102, 45, 56, 63, 81, 63, 61, 67, 56, 63, 61]], []⟩)
    ∧ ([61, 63, 117, 116, 102, 45, 56, 63, 81, 63, 61, 67, 56, 63, 61] : List Nat).length
        ≤ ENCWORD_LEN_MAX := by
  refine ⟨by decide, ?_⟩
  exact c1_encoded_word_len_max cvOkW convFullW (fun x => x) isAscW [200] 0
    utf8Name utf8Name none
    ⟨0, [], [[61, 63, 117, 116, 102, 45, 56, 63, 81, 63, 61, 67, 56, 63, 61]], []⟩
    (fun f t inp obl k hx => by simp [cvOkW] at hx) (by decide)
    [61, 63, 117, 116, 102, 45, 56, 63, 81, 63, 61, 67, 56, 63, 61] (by decide)

/-! ## Scanner progress and termination (C9) -/

theorem getD_pos_lt (s : List Nat) (q : Nat) (h : 0 < s.getD q 0) : q < s.length := by
  by_contra hq
  have hz : s.getD q 0 = 0 := @List.getD_eq_default _ s 0 q (by omega)
  omega

theorem charsetScanGo_ge (s : List Nat) : ∀ f q, q ≤ charsetScanGo s f q := by
  intro f
  induction f with
  | zero => intro q; simp [charsetScanGo]
  | succ f ih =>
    intro q
    simp only [charsetScanGo]
    split
    · exact le_trans (by omega) (ih (q + 1))
    · exact le_refl _

theorem payloadScanGo_ge (s : List Nat) : ∀ f q, q ≤ payloadScanGo s f q := by
  intro f
  induction f with
  | zero => intro q; simp [payloadScanGo]
  | succ f ih =>
    intro q
    simp only [payloadScanGo]
    split
    · exact le_trans (by omega) (ih (q + 1))
    · exact le_refl _

theorem findMarkerGo_some (s : List Nat) :
    ∀ f i p, findMarkerGo s f i = some p → i ≤ p ∧ p + 1 < s.length := by
  intro f
  induction f with
  | zero => intro i p h; simp [findMarkerGo] at h
  | succ f ih =>
    intro i p h
    simp only [findMarkerGo] at h
    split_ifs at h with hlen hmark
    all_goals first
      | ((cases h) <;> exact ⟨le_refl _, getD_pos_lt s _ (by omega)⟩)
      | (obtain ⟨h1, h2⟩ := ih (i + 1) p h; exact ⟨by omega, h2⟩)

theorem few_attempt_progress (s : List Nat) (p r : Nat)
    (h : few_attempt s p = Sum.inr r) : p + 2 ≤ r := by
  simp only [few_attempt] at h
  split_ifs at h with h1 h2
  · cases h
    have := payloadScanGo_ge s (s.length + 1) (charsetScan s (p + 2) + 3)
    have := charsetScanGo_ge s (s.length + 1) (p + 2)
    simp only [payloadScan, charsetScan] at *
    omega
  · cases h
    have := charsetScanGo_ge s (s.length + 1) (p + 2)
    simp only [charsetScan] at *
    omega

theorem few_go_total (s : List Nat) :
    ∀ fuel i, s.length + 2 - i < fuel → (few_go s fuel i).isSome = true := by
  intro fuel
  induction fuel with
  | zero => intro i h; omega
  | succ f ih =>
    intro i hf
    simp only [few_go]
    cases hm : findMarker s i with
    | none => simp
    | some p =>
      dsimp only
      obtain ⟨hip, hpl⟩ := findMarkerGo_some s (s.length + 1) i p hm
      cases ha : few_attempt s p with
      | inl r => simp [ha]
      | inr resume =>
        dsimp only
        have hpr := few_attempt_progress s p resume ha
        exact ih resume (by omega)

/-- **C9.**  Whenever the encoded-word grammar fails part-way through a
candidate token, `find_encoded_word` resumes from strictly past the failed
`=?` occurrence (`p + 2 ≤ resume`), so the scan position strictly advances
and the scanner terminates on every input: fuel `|s| + 2 - i + 1` always
suffices. -/
theorem c9_scanner_progress (s : List Nat) :
    (∀ p r, few_attempt s p = Sum.inr r → p + 2 ≤ r)
    ∧ (∀ i fuel, s.length + 2 - i < fuel → (few_go s fuel i).isSome = true) :=
  ⟨fun p r h => few_attempt_progress s p r h, fun i fuel h => few_go_total s fuel i h⟩

/-- Witness for C9 at a concrete input: on `"=?x"` the grammar check at the
marker at position 0 fails and resumes at index 3 ≥ 0 + 2, and the fueled
scanner returns a result. -/
theorem c9_scanner_progress_witness :
    (few_attempt [61, 63, 120] 0 = Sum.inr 3 ∧ 0 + 2 ≤ 3)
    ∧ (([61, 63, 120] : List Nat).length + 2 - 0 < 6
        ∧ (few_go [61, 63, 120] 6 0).isSome = true) := by
  refine ⟨⟨by decide, ?_⟩, by decide, ?_⟩
  · exact (c9_scanner_progress [61, 63, 120]).1 0 3 (by decide)
  · exact (c9_scanner_progress [61, 63, 120]).2 0 6 (by decide)

/-! ## Quoted-Printable payload decoding (C6) -/

/-- **C6 counterexample.**  Decoding the word `=?a?Q?=G?=` (with identity
display conversion and filtering): the malformed `=` is not skipped — it is
copied through, so the output is `=G` (two bytes), not `G`. -/
theorem c6_counterexample :
    rfc2047_decode_word (fun _ x => x) (fun x => x)
      [61, 63, 97, 63, 81, 63, 61, 71, 63, 61] 100 = some [61, 71]
    ∧ [61, 71] ≠ ([71] : List Nat) := by decide

/-- **C6 (amended).**  In Quoted-Printable payload decoding, `_` decodes to
a space, `=` followed by two valid hex digits (upper or lower case) decodes
to that byte, and a malformed `=` sequence is copied through verbatim as a
literal `=` byte (never an error), with the following bytes then processed
normally. -/
theorem c6_qp_decode_amended (c1 c2 h1 h2 : Nat) (rest : List Nat)
    (hv1 : hexval c1 = some h1) (hv2 : hexval c2 = some h2) :
    qp_decode (95 :: rest) = 32 :: qp_decode rest
    ∧ qp_decode (61 :: c1 :: c2 :: rest) = (h1 * 16 + h2) :: qp_decode rest
    ∧ (∀ d1 d2 : Nat, ∀ rest2 : List Nat, hexval d1 = none ∨ hexval d2 = none →
        qp_decode (61 :: d1 :: d2 :: rest2) = 61 :: qp_decode (d1 :: d2 :: rest2))
    ∧ (∀ d1 : Nat, qp_decode [61, d1] = 61 :: qp_decode [d1])
    ∧ qp_decode [61] = [61] := by
  refine ⟨rfl, ?_, ?_, fun d1 => rfl, rfl⟩
  · simp [qp_decode, hv1, hv2]
  · intro d1 d2 rest2 h
    rcases h with hd | hd
    · simp [qp_decode, hd]
    · cases hv : hexval d1 <;> simp [qp_decode, hd, hv]

/-- Witness for C6 at concrete digits: `=41` decodes to the byte 65. -/
theorem c6_qp_decode_amended_witness :
    (hexval 52 = some 4) ∧ (hexval 49 = some 1)
    ∧ qp_decode [61, 52, 49] = 65 :: qp_decode [] := by
  refine ⟨by decide, by decide, ?_⟩
  exact (c6_qp_decode_amended 52 49 4 1 [] (by decide) (by decide)).2.1

/-! ## Charset negotiation (C3) -/

theorem chooseAux_eq (conv : List Nat → Option (Nat × List Nat)) :
    ∀ (l : List (List Nat)) (best : Option (List Nat × Nat × List Nat)),
      chooseAux conv l best = mergeBest best (bestBy (successes conv l)) := by
  intro l
  induction l with
  | nil =>
    intro best
    cases best <;> rfl
  | cons t rest ih =>
    intro best
    cases hconv : conv t with
    | none =>
      have hs : successes conv (t :: rest) = successes conv rest := by
        simp [successes, List.filterMap_cons, hconv]
      rw [hs]
      cases best with
      | none => simp only [chooseAux, hconv]; exact ih none
      | some b => simp only [chooseAux, hconv]; exact ih (some b)
    | some p =>
      obtain ⟨n, s⟩ := p
      have hs : successes conv (t :: rest) = (t, n, s) :: successes conv rest := by
        simp [successes, List.filterMap_cons, hconv]
      rw [hs]
      cases best with
      | none =>
        simp only [chooseAux, hconv]
        by_cases hn : n = 0
        · subst hn
          simp only [beq_self_eq_true, if_true]
          cases hb : bestBy (successes conv rest) <;>
            simp only [bestBy, hb] <;> (try split_ifs) <;>
            (try simp only [mergeBest]) <;> (try split_ifs) <;>
            first | rfl | (exfalso; omega)
        · have hnb : (n == 0) = false := by simpa using hn
          rw [hnb]
          simp only [Bool.false_eq_true, if_false]
          rw [ih (some (t, n, s))]
          cases hb : bestBy (successes conv rest) <;>
            simp only [bestBy, hb] <;> (try split_ifs) <;>
            (try simp only [mergeBest]) <;> (try split_ifs) <;>
            first | rfl | (exfalso; omega)
      | some b =>
        obtain ⟨bt, bn, bs⟩ := b
        simp only [chooseAux, hconv]
        by_cases hlt : n < bn
        · rw [if_pos hlt]
          by_cases hn : n = 0
          · subst hn
            simp only [beq_self_eq_true, if_true]
            cases hb : bestBy (successes conv rest) <;>
            simp only [bestBy, hb] <;> (try split_ifs) <;>
            (try simp only [mergeBest]) <;> (try split_ifs) <;>
            first | rfl | (exfalso; omega)
          · have hnb : (n == 0) = false := by simpa using hn
            rw [hnb]
            simp only [Bool.false_eq_true, if_false]
            rw [ih (some (t, n, s))]
            cases hb : bestBy (successes conv rest) <;>
            simp only [bestBy, hb] <;> (try split_ifs) <;>
            (try simp only [mergeBest]) <;> (try split_ifs) <;>
            first | rfl | (exfalso; omega)
        · rw [if_neg hlt]
          rw [ih (some (bt, bn, bs))]
          cases hb : bestBy (successes conv rest) <;>
            simp only [bestBy, hb] <;> (try split_ifs) <;>
            (try simp only [mergeBest]) <;> (try split_ifs) <;>
            first | rfl | (exfalso; omega)

/-- **C3 counterexample.**  With candidates `"a:b"`, where `"a"` converts
with one inexact character to one byte and `"b"` converts exactly to three
bytes, `mutt_choose_charset` returns `"b"` — not the candidate with the
shortest successful converted byte length, which is `"a"`. -/
theorem c3_counterexample :
    mutt_choose_charset (fun x => x) convC [97, 58, 98] = some ([98], [0, 0, 0])
    ∧ convC [97] = some (1, [0])
    ∧ convC [98] = some (0, [0, 0, 0])
    ∧ ([0] : List Nat).length < ([0, 0, 0] : List Nat).length := by decide

/-- **C3 (amended).**  `mutt_choose_charset` returns (canonicalized) the
earliest candidate whose successful conversion has the fewest inexactly
converted characters (iconv's return value) — not the shortest converted
byte length — together with its converted bytes; a zero-inexact candidate
short-circuits (it is minimal), and the result is `none` exactly when no
candidate converts. -/
theorem c3_choose_charset_amended (canon : List Nat → List Nat)
    (conv : List Nat → Option (Nat × List Nat)) (charsets : List Nat) :
    mutt_choose_charset canon conv charsets
      = (bestBy (successes conv (splitColon charsets))).map
          (fun r => (canon r.1, r.2.2)) := by
  unfold mutt_choose_charset
  rw [chooseAux_eq conv (splitColon charsets) none]
  rfl

/-! ## Decoder: the no-encoded-word tail (C8, C7) -/

theorem findMarkerGo_none (s : List Nat)
    (hnomark : ∀ i, i < s.length → ¬(s.getD i 0 = 61 ∧ s.getD (i + 1) 0 = 63)) :
    ∀ f i, findMarkerGo s f i = none := by
  intro f
  induction f with
  | zero => intro i; rfl
  | succ f ih =>
    intro i
    simp only [findMarkerGo]
    split_ifs with hlen hmark
    · rfl
    · exact absurd hmark (hnomark i (by omega))
    · exact ih (i + 1)

theorem few_none_of_nomark (s : List Nat)
    (hnomark : ∀ i, i < s.length → ¬(s.getD i 0 = 61 ∧ s.getD (i + 1) 0 = 63)) :
    few s = none := by
  have hm : findMarker s 0 = none := findMarkerGo_none s hnomark (s.length + 1) 0
  have h3 : s.length + 3 = (s.length + 2) + 1 := rfl
  simp only [few, h3, few_go, hm]
  rfl

theorem decode_no_word (cfg : DecCfg) (s : List Nat)
    (hne : s ≠ []) (hfew : few s = none) :
    rfc2047_decode cfg s = some (decTail cfg s false (4 * s.length) []) := by
  have hlen : s.length ≠ 0 := by simpa [List.length_eq_zero] using hne
  have hdl : 4 * s.length ≠ 0 := by omega
  simp only [rfc2047_decode, if_neg hne, decLoop, if_neg hne, if_neg hdl, hfew]

theorem decTail_not_found (cfg : DecCfg) (s : List Nat) (dlen : Nat) (acc : List Nat) :
    decTail cfg s false dlen acc =
      if cfg.assumed ≠ [] then acc ++ convert_nonmime_string cfg s
      else acc ++ s.take dlen := by
  simp [decTail]

/-- **C8 counterexample.**  With the assumed legacy charset configured and a
pure-ASCII input containing no encoded word, `rfc2047_decode` still applies
the fallback conversion (here rewriting `"abc"` to `"XYZ"`), although the
claim says the fallback requires non-ASCII text. -/
theorem c8_counterexample :
    rfc2047_decode cfgY [97, 98, 99] = some [88, 89, 90]
    ∧ (∀ c ∈ [97, 98, 99], c < 128)
    ∧ [88, 89, 90] ≠ ([97, 98, 99] : List Nat) := by decide

/-- **C8 (amended).**  On a non-empty input in which the scanner finds no
encoded word, `rfc2047_decode` applies the whole-string assumed-legacy-
charset fallback conversion exactly when an assumed charset is configured —
whether or not the text is ASCII; with no assumed charset configured the
text is returned unchanged. -/
theorem c8_assumed_fallback_amended (cfg : DecCfg) (s : List Nat)
    (hne : s ≠ []) (hfew : few s = none) :
    (cfg.assumed ≠ [] → rfc2047_decode cfg s = some (convert_nonmime_string cfg s))
    ∧ (cfg.assumed = [] → rfc2047_decode cfg s = some s) := by
  have hd := decode_no_word cfg s hne hfew
  rw [decTail_not_found] at hd
  constructor
  · intro ha
    rw [hd, if_pos ha]
    simp
  · intro ha
    rw [hd, if_neg (by simp [ha])]
    rw [List.nil_append, List.take_of_length_le (by omega)]

/-- Witness for C8 at a concrete input: ASCII `"abc"`, assumed charset
`"x"` configured — the fallback conversion is applied. -/
theorem c8_assumed_fallback_amended_witness :
    (([97, 98, 99] : List Nat) ≠ []) ∧ few [97, 98, 99] = none
    ∧ cfgY.assumed ≠ []
    ∧ rfc2047_decode cfgY [97, 98, 99]
        = some (convert_nonmime_string cfgY [97, 98, 99]) := by
  refine ⟨by decide, by decide, by decide, ?_⟩
  exact (c8_assumed_fallback_amended cfgY [97, 98, 99] (by decide) (by decide)).1
    (by decide)

/-! ## The ASCII round trip (C7) -/

theorem cond1_false (u : List Nat) (t : Nat)
    (hascii : ∀ c ∈ u, c < 128)
    (hnomark : ∀ i, i < u.length → ¬(u.getD i 0 = 61 ∧ u.getD (i + 1) 0 = 63)) :
    cond1 u t = false := by
  have hlt : u.getD t 0 < 128 := by
    by_cases ht : t < u.length
    · rw [List.getD_eq_getElem u 0 ht]
      exact hascii _ (List.getElem_mem ht)
    · rw [@List.getD_eq_default _ u 0 t (by omega)]
      omega
  have h1 : (u.getD t 0 / 128 % 2 == 1) = false := by
    rw [Nat.div_eq_of_lt hlt]
    rfl
  have h2 : (u.getD t 0 == 61 && u.getD (t + 1) 0 == 63 &&
      (t == 0 || HSPACE (u.getD (t - 1) 0))) = false := by
    by_cases ht : t < u.length
    · have hnm := hnomark t ht
      by_cases ha : u.getD t 0 = 61
      · by_cases hb : u.getD (t + 1) 0 = 63
        · exact absurd ⟨ha, hb⟩ hnm
        · have hbf : (u.getD (t + 1) 0 == 63) = false := by simpa using hb
          rw [hbf, Bool.and_false, Bool.false_and]
      · have haf : (u.getD t 0 == 61) = false := by simpa using ha
        rw [haf, Bool.false_and, Bool.false_and]
    · have hz : u.getD t 0 = 0 := @List.getD_eq_default _ u 0 t (by omega)
      have haf : (u.getD t 0 == 61) = false := by rw [hz]; rfl
      rw [haf, Bool.false_and, Bool.false_and]
  simp only [cond1, h1, h2, Bool.or_self, Bool.false_or]

/-- **C7 counterexample.**  The ASCII-only two-byte input `"=?"` (with no
specials) is not returned unchanged: the encoder wraps it in an encoded
word, because `=?` at the start of the string triggers encoding. -/
theorem c7_counterexample :
    (∀ c ∈ [61, 63], c < 128)
    ∧ rfc2047_encode cvOkW convFullW (fun x => x) isAscW [61, 63] 0 utf8Name
        utf8Name none
      = some ⟨0, [], [[61, 63, 117, 116, 102, 45, 56, 63, 66, 63, 80, 84, 56, 61, 63, 61]], []⟩
    ∧ (EncResult.mk 0 []
        [[61, 63, 117, 116, 102, 45, 56, 63, 66, 63, 80, 84, 56, 61, 63, 61]] []).words
      ≠ [] := by
  refine ⟨by decide, by decide, by decide⟩

/-- **C7 (amended).**  For every ASCII-only input with no special
characters and no `=?` pair anywhere (and, for the decode side, no assumed
legacy charset configured), `rfc2047_encode` returns the input unchanged
with status 0 and produces no encoded words, and `rfc2047_decode` applied
to that flat output returns the original input. -/
theorem c7_ascii_roundtrip_amended (cv : Conv)
    (convFull : List Nat → List Nat → List Nat → Option (Nat × List Nat))
    (canon : List Nat → List Nat) (isAsc : List Nat → Bool) (cfg : DecCfg)
    (d : List Nat) (col : Nat) (fromcode charsets : List Nat)
    (specials : Option (List Nat))
    (hconv : convFull fromcode utf8Name d = some (0, d))
    (hascii : ∀ c ∈ d, c < 128)
    (hnomark : ∀ i, i < d.length → ¬(d.getD i 0 = 61 ∧ d.getD (i + 1) 0 = 63))
    (hsp : ∀ i, i < d.length → cond2 d specials i = false)
    (hassumed : cfg.assumed = []) :
    rfc2047_encode cv convFull canon isAsc d col fromcode charsets specials
      = some ⟨0, d, [], []⟩
    ∧ rfc2047_decode cfg (EncResult.mk 0 d [] []).out = some d := by
  have hfilter : (List.range d.length).filter (fun t => cond1 d t) = [] := by
    rw [List.filter_eq_nil_iff]
    intro a _
    simp [cond1_false d a hascii hnomark]
  have hout : (EncResult.mk 0 d [] []).out = d := by
    simp [EncResult.out, joinWords]
  constructor
  · simp only [rfc2047_encode, hconv, encodeCore, hfilter]
    rfl
  · rw [hout]
    by_cases hd : d = []
    · subst hd
      rfl
    · have hfew : few d = none := few_none_of_nomark d hnomark
      have hdec := decode_no_word cfg d hd hfew
      rw [decTail_not_found] at hdec
      rw [hdec, if_neg (by simp [hassumed])]
      rw [List.nil_append, List.take_of_length_le (by omega)]

/-- Witness for C7 at a concrete input: the two-byte ASCII input `"hi"`
round-trips unchanged. -/
theorem c7_ascii_roundtrip_amended_witness :
    (convFullW utf8Name utf8Name [104, 105] = some (0, [104, 105]))
    ∧ (cfgW.assumed = [])
    ∧ rfc2047_encode cvOkW convFullW (fun x => x) isAscW [104, 105] 0 utf8Name
        utf8Name none = some ⟨0, [104, 105], [], []⟩
    ∧ rfc2047_decode cfgW (EncResult.mk 0 [104, 105] [] []).out = some [104, 105] := by
  refine ⟨by decide, by decide, ?_⟩
  exact c7_ascii_roundtrip_amended cvOkW convFullW (fun x => x) isAscW cfgW
    [104, 105] 0 utf8Name utf8Name none (by decide) (by decide) (by decide)
    (by decide) (by decide)

/-! ## Adjacent encoded words and linear white space (C5) -/

theorem takeWhile_all (p : Nat → Bool) (l : List Nat) (h : ∀ c ∈ l, p c = true) :
    l.takeWhile p = l := by
  induction l with
  | nil => rfl
  | cons c rest ih =>
    rw [List.takeWhile_cons, h c (by simp)]
    simp only [if_true]
    rw [ih (fun c hc => h c (by simp [hc]))]

theorem lwslen_append_all (g rest : List Nat) (h : ∀ c ∈ g, isLws c = true) :
    lwslen (g ++ rest) g.length = g.length := by
  unfold lwslen
  rw [List.take_left, takeWhile_all isLws g h]

theorem decStepGap_pure_lws (cfg : DecCfg) (g rest : List Nat) (dlen : Nat)
    (acc : List Nat) (hilws : cfg.ignoreLWS = true) (hg : g ≠ [])
    (hglws : ∀ c ∈ g, isLws c = true) :
    decStepGap cfg (g ++ rest) g.length true dlen acc = (dlen, acc) := by
  have hgl : g.length ≠ 0 := by simpa [List.length_eq_zero] using hg
  have hm1 := lwslen_append_all g rest hglws
  simp [decStepGap, hilws, hm1, hgl, lwsrlen]

theorem decLoop_step_at0 (cfg : DecCfg) (fuel : Nat) (s : List Nat) (found : Bool)
    (dlen : Nat) (acc : List Nat) (q : Nat) (d0 : List Nat)
    (hne : s ≠ []) (hdl : dlen ≠ 0)
    (hfew : few s = some (0, q))
    (hdw : dwCore cfg.convDisp cfg.filterUnpr s = some d0)
    (hlen : d0.length ≤ dlen - 1) :
    decLoop cfg (fuel + 1) s found dlen acc
      = decLoop cfg fuel (s.drop q) true (dlen - d0.length) (acc ++ d0) := by
  simp only [decLoop, if_neg hne, if_neg hdl, hfew, if_false, List.drop_zero,
    rfc2047_decode_word, hdw, Option.map_some']
  have h0 : (if 0 ≠ 0 then decStepGap cfg s 0 found dlen acc else (dlen, acc))
      = (dlen, acc) := if_neg (by omega)
  rw [h0]
  rw [List.take_of_length_le hlen]

theorem decLoop_step_lws (cfg : DecCfg) (fuel : Nat) (g w2 : List Nat)
    (dlen : Nat) (acc : List Nat) (d0 : List Nat)
    (hilws : cfg.ignoreLWS = true) (hg : g ≠ [])
    (hglws : ∀ c ∈ g, isLws c = true) (hdl : dlen ≠ 0)
    (hfew : few (g ++ w2) = some (g.length, g.length + w2.length))
    (hdw : dwCore cfg.convDisp cfg.filterUnpr w2 = some d0)
    (hlen : d0.length ≤ dlen - 1) :
    decLoop cfg (fuel + 1) (g ++ w2) true dlen acc
      = decLoop cfg fuel ((g ++ w2).drop (g.length + w2.length)) true
          (dlen - d0.length) (acc ++ d0) := by
  have hne : g ++ w2 ≠ [] := by
    intro h
    rw [List.append_eq_nil] at h
    exact hg h.1
  have hgl : g.length ≠ 0 := by simpa [List.length_eq_zero] using hg
  simp only [decLoop, if_neg hne, if_neg hdl, hfew]
  rw [if_pos hgl]
  rw [decStepGap_pure_lws cfg g w2 dlen acc hilws hg hglws]
  simp only [List.drop_left, rfc2047_decode_word, hdw, Option.map_some']
  rw [List.take_of_length_le hlen]

/-- **C5 counterexample.**  Two well-formed Quoted-Printable encoded words
separated only by the fold point `"\n\t"`, with white-space collapsing
enabled, decode to `"xy"` — the pure white-space gap is dropped entirely,
producing zero spaces, not exactly one. -/
theorem c5_counterexample :
    rfc2047_decode cfgW
      ([61, 63, 97, 63, 81, 63, 120, 63, 61] ++ [10, 9] ++
        [61, 63, 97, 63, 81, 63, 121, 63, 61])
      = some [120, 121]
    ∧ [120, 121] ≠ ([120, 32, 121] : List Nat) := by decide

/-- **C5 (amended).**  For every input consisting of two well-formed
encoded words separated only by linear white space (a fold point), with the
collapse-linear-white-space option enabled, `rfc2047_decode` produces the
two decoded contents joined directly — the pure white-space gap between
adjacent encoded words is dropped entirely (zero spaces, not one). -/
theorem c5_adjacent_words_amended (cfg : DecCfg) (w1 g w2 d1 d2 : List Nat)
    (hilws : cfg.ignoreLWS = true)
    (hw1 : w1 ≠ [])
    (hg : g ≠ [])
    (hglws : ∀ c ∈ g, isLws c = true)
    (hfew1 : few (w1 ++ g ++ w2) = some (0, w1.length))
    (hfew2 : few (g ++ w2) = some (g.length, g.length + w2.length))
    (hdw1 : dwCore cfg.convDisp cfg.filterUnpr (w1 ++ g ++ w2) = some d1)
    (hdw2 : dwCore cfg.convDisp cfg.filterUnpr w2 = some d2)
    (hcap : d1.length + d2.length + 1 < 4 * (w1 ++ g ++ w2).length) :
    rfc2047_decode cfg (w1 ++ g ++ w2) = some (d1 ++ d2) := by
  rw [List.append_assoc] at hfew1 hdw1 hcap ⊢
  have hne : w1 ++ (g ++ w2) ≠ [] := by simp [hw1]
  have hw1l : w1.length ≠ 0 := by simpa [List.length_eq_zero] using hw1
  have hgl : g.length ≠ 0 := by simpa [List.length_eq_zero] using hg
  have hlen0 : (w1 ++ (g ++ w2)).length = w1.length + (g.length + w2.length) := by
    simp
  have hF : (w1 ++ (g ++ w2)).length + 1
      = (w1 ++ (g ++ w2)).length - 2 + 1 + 1 + 1 := by
    omega
  simp only [rfc2047_decode, if_neg hne]
  rw [hF]
  rw [decLoop_step_at0 cfg ((w1 ++ (g ++ w2)).length - 2 + 1 + 1) (w1 ++ (g ++ w2))
    false (4 * (w1 ++ (g ++ w2)).length) [] w1.length d1 hne (by omega) hfew1 hdw1
    (by omega)]
  rw [List.drop_left, List.nil_append]
  rw [decLoop_step_lws cfg ((w1 ++ (g ++ w2)).length - 2 + 1) g w2
    (4 * (w1 ++ (g ++ w2)).length - d1.length) d1 d2 hilws hg hglws (by omega)
    hfew2 hdw2 (by omega)]
  have hdrop2 : (g ++ w2).drop (g.length + w2.length) = [] := by
    rw [← List.length_append]
    exact List.drop_length _
  rw [hdrop2]
  simp [decLoop]

/-- Witness for C5 at a concrete input: the two Quoted-Printable words of
the counterexample, through the amended theorem. -/
theorem c5_adjacent_words_amended_witness :
    (few ([61, 63, 97, 63, 81, 63, 120, 63, 61] ++ [10, 9] ++
        [61, 63, 97, 63, 81, 63, 121, 63, 61])
      = some (0, ([61, 63, 97, 63, 81, 63, 120, 63, 61] : List Nat).length))
    ∧ rfc2047_decode cfgW
        ([61, 63, 97, 63, 81, 63, 120, 63, 61] ++ [10, 9] ++
          [61, 63, 97, 63, 81, 63, 121, 63, 61])
      = some ([120] ++ [121]) := by
  refine ⟨by decide, ?_⟩
  exact c5_adjacent_words_amended cfgW [61, 63, 97, 63, 81, 63, 120, 63, 61]
    [10, 9] [61, 63, 97, 63, 81, 63, 121, 63, 61] [120] [121]
    (by decide) (by decide) (by decide) (by decide) (by decide) (by decide)
    (by decide) (by decide) (by decide)

end Rfc2047
